import Mathlib

/-!
Verification of the L2Backup backup-compliance scripts.

Shallow embedding conventions:
* A UTC instant is an `Int`, seconds since the epoch; the UTC calendar day of
  an instant is its floor-division by 86400, so Python's
  `(now.date() - snap.date()).days` is `dayOf now - dayOf snap`.
* A platform snapshot edge is a `Snap`: its `date` is `none` when the raw
  string is missing or unparseable (Python `_parse_snapshot_date` returning
  `None`), otherwise the parsed instant.
* Python strings are Lean `String`s; `lowerStr`, `pyStrip`, `strContains`,
  `firstDotSeg` and `strTake` model `str.lower()`, `str.strip()`,
  `in`-substring tests, `s.split(".")[0]` and `s[:n]` over the char list.
* Formatting of timestamps (`strftime`) is dropped: a reported timestamp is
  carried as `Option Int` (`none` standing for the `"N/A"` string).
-/

/-- One snapshot edge as consumed by the checkers: parsed `date`
(`none` = missing/unparseable), the `isOnDemandSnapshot` flag and the
snapshot's SLA domain name. -/
structure Snap where
  date : Option Int
  isOnDemand : Bool
  sla : String
deriving Repr, DecidableEq

/-- UTC calendar day of an instant (floor division, as Python `.date()`). -/
def dayOf (t : Int) : Int := Int.fdiv t 86400

/-- Python `str.lower()` restricted to ASCII case mapping. -/
def lowerStr (s : String) : String := String.mk (s.data.map Char.toLower)

/-- Drop leading whitespace characters. -/
def dropWs (l : List Char) : List Char := l.dropWhile Char.isWhitespace

/-- Python `str.strip()`: drop whitespace at both ends. -/
def pyStrip (s : String) : String :=
  String.mk (((dropWs s.data).reverse |> dropWs).reverse)

/-- Python `s.split(".")[0]`: the segment before the first dot. -/
def firstDotSeg (s : String) : String :=
  String.mk (s.data.takeWhile (fun c => c ≠ '.'))

/-- Python `s[:n]` (slice by code points). -/
def strTake (s : String) (n : Nat) : String := String.mk (s.data.take n)

/-- `headMatches needle hay` is true when `needle` occurs at the start of
`hay`. -/
def headMatches : List Char → List Char → Bool
  | [], _ => true
  | _ :: _, [] => false
  | a :: as, b :: bs => a == b && headMatches as bs

/-- `subIn needle hay`: `needle` occurs as a contiguous sublist of `hay`. -/
def subIn (needle : List Char) : List Char → Bool
  | [] => needle.isEmpty
  | c :: t => headMatches needle (c :: t) || subIn needle t

/-- Python `needle in hay` substring test. -/
def strContains (hay needle : String) : Bool := subIn needle.data hay.data

/-- Code-point lexicographic order on char lists (the order Python string
comparison and `sorted` use). -/
def lexLt : List Char → List Char → Bool
  | [], [] => false
  | [], _ :: _ => true
  | _ :: _, [] => false
  | a :: as, b :: bs =>
    if a.toNat < b.toNat then true
    else if b.toNat < a.toNat then false
    else lexLt as bs

/-- Python `a < b` on strings: code-point lexicographic. -/
def strLt (a b : String) : Bool := lexLt a.data b.data

/-- Running maximum update used by the checkers
(`if cur is None or d > cur: cur = d`). -/
def someMax (o : Option Int) (d : Int) : Option Int :=
  match o with
  | none => some d
  | some m => if d > m then some d else some m

namespace Check
/-!  `L2Backup/check.py` — the unified checker.  -/

/-- `check.py::latest_snapshot_after_cutoff`: looks only at the first edge;
returns `(status, last_backup, snapshot_count, sla)`.  Status is `"YES"`
exactly when the first edge parses and its calendar-day delta from `now`
is 0 or 1. -/
def latest_snapshot_after_cutoff (edges : List Snap) (now : Int) :
    String × Option Int × Nat × String :=
  match edges with
  | [] => ("NO", none, 0, "N/A")
  | e :: _ =>
    match e.date with
    | none => ("NO", none, edges.length, e.sla)
    | some d =>
      let diff := dayOf now - dayOf d
      ((if diff = 0 ∨ diff = 1 then "YES" else "NO"), some d, edges.length, e.sla)

end Check

namespace CheckFilesets
/-!  `L2Backup/check_filesets.py`.  Window parameters `S` (env
`STATUS_WINDOW_DAYS`, default 2) and `C` (env `COUNT_WINDOW_DAYS`,
default 60) are taken as arguments.  -/

/-- One pass of the snapshot loop: accumulate `(recent_status, recent_count)`. -/
def fsStep (now S C : Int) (acc : Bool × Nat) (e : Snap) : Bool × Nat :=
  match e.date with
  | none => acc
  | some d =>
    let diff := dayOf now - dayOf d
    if diff < 0 then acc
    else ((acc.1 || decide (diff ≤ S)), acc.2 + (if diff ≤ C then 1 else 0))

/-- `check_filesets.py::latest_snapshot_after_cutoff`: returns
`(status, last_backup, recent_count)`.  `last_backup` is the **first**
edge's date (assumed newest-first); the status/count loop skips edges whose
calendar day is after `now`'s day. -/
def latest_snapshot_after_cutoff (edges : List Snap) (now S C : Int) :
    String × Option Int × Nat :=
  match edges with
  | [] => ("NO", none, 0)
  | e0 :: _ =>
    match e0.date with
    | none => ("NO", none, 0)
    | some latestDt =>
      let r := edges.foldl (fsStep now S C) (false, 0)
      ((if r.1 then "YES" else "NO"), some latestDt, r.2)

end CheckFilesets

namespace CheckLastBackup
/-!  `L2Backup/check_last_backup.py::run`, the per-server snapshot scan
(lines 252-290).  Window parameters `W` (env `STATUS_WINDOW_HOURS`,
default 24) and `C` (env `COUNT_WINDOW_DAYS`, default 60) are arguments.  -/

/-- Loop state: `latest_dt`, `latest_dt_non_ondemand_recent`,
`latest_dt_ondemand_recent`, `success_count`. -/
structure LBState where
  latest : Option Int
  nonOd : Option Int
  od : Option Int
  cnt : Nat
deriving Repr, DecidableEq

/-- One iteration of the snapshot loop of `run`: unparseable dates and
dates after `now` are skipped entirely; `rc` is `recent_cutoff`, `cc` is
`count_cutoff`. -/
def lbStep (now rc cc : Int) (acc : LBState) (e : Snap) : LBState :=
  match e.date with
  | none => acc
  | some d =>
    if d > now then acc
    else
      let latest := someMax acc.latest d
      let cnt := acc.cnt + (if d ≥ cc then 1 else 0)
      if d ≥ rc then
        if e.isOnDemand then ⟨latest, acc.nonOd, someMax acc.od d, cnt⟩
        else ⟨latest, someMax acc.nonOd d, acc.od, cnt⟩
      else ⟨latest, acc.nonOd, acc.od, cnt⟩

/-- The whole snapshot loop of `run`. -/
def lbFold (edges : List Snap) (now rc cc : Int) : LBState :=
  edges.foldl (lbStep now rc cc) ⟨none, none, none, 0⟩

/-- The per-server evaluation of `run`: returns
`(status, last_backup, successful_backup_count)`.  Status is `"YES"` when a
recent regular **or** a recent on-demand snapshot exists. -/
def evalServer (edges : List Snap) (now W C : Int) : String × Option Int × Nat :=
  let st := lbFold edges now (now - W * 3600) (now - C * 86400)
  ((if st.nonOd.isSome || st.od.isSome then "YES" else "NO"), st.latest, st.cnt)

end CheckLastBackup

namespace CheckBackup
/-!  `L2Backup/check_backup.py` — ranked name matcher and per-type driver.  -/

/-- One catalog object as built by `fetch_all_filesets` / `fetch_all_vms`:
the dict keys `snappable_id`, `object_name`, `server_lower`, `server_norm`,
`fileset`, `cluster`, `sla`, `path`, `type`. -/
structure RObj where
  snappableId : Option String
  objectName : String
  serverLower : String
  serverNorm : String
  fileset : String
  cluster : String
  sla : String
  path : String
  otype : String
deriving Repr, DecidableEq

/-- `check_backup.py::_normalize_hostname`: empty → empty, else
strip, lowercase, first dot-delimited segment. -/
def normalize_hostname (name : String) : String :=
  if name = "" then "" else firstDotSeg (lowerStr (pyStrip name))

/-- Catalog-entry construction shared by `fetch_all_filesets` and
`fetch_all_vms`: `obj_name = (raw or "n/a").strip()`, then
`object_name = obj_name or "n/a"`, `server_lower = obj_name.lower()`,
`server_norm = _normalize_hostname(obj_name)`. -/
def mkEntry (raw : String) (sid : Option String)
    (fileset cluster sla path otype : String) : RObj :=
  let objName := pyStrip (if raw = "" then "n/a" else raw)
  { snappableId := sid
    objectName := if objName = "" then "n/a" else objName
    serverLower := lowerStr objName
    serverNorm := normalize_hostname objName
    fileset := fileset, cluster := cluster, sla := sla
    path := path, otype := otype }

/-- `check_backup.py::match_weight`. -/
def match_weight (server : String) (entry : RObj) : Nat :=
  let target := normalize_hostname server
  if target = "" then 0
  else if target = entry.serverNorm ∨ target = entry.serverLower then 3
  else if strContains entry.serverLower target then 2
  else if strContains entry.path target then 1
  else 0

/-- `check_backup.py::latest_snapshot_after_cutoff`: only the first edge is
examined; returns `(status, parsed date)`. -/
def latest_snapshot_after_cutoff (edges : List Snap) (now : Int) :
    String × Option Int :=
  match edges with
  | [] => ("NO", none)
  | e :: _ =>
    match e.date with
    | none => ("NO", none)
    | some d =>
      let diff := dayOf now - dayOf d
      ((if diff = 0 ∨ diff = 1 then "YES" else "NO"), some d)

/-- The candidate list `matches_with_weight` built in `check_backups`:
positive-weight objects, in catalog order, paired with their weight. -/
def matchesWithWeight (srv : String) (objs : List RObj) : List (RObj × Nat) :=
  objs.filterMap (fun o =>
    let w := match_weight srv o
    if w ≠ 0 then some (o, w) else none)

/-- Insertion into the insertion-ordered `matches_grouped` dict:
append to an existing `object_type` bucket, else open a new one at the end. -/
def addToGroup (acc : List (String × List (RObj × Nat))) (p : RObj × Nat) :
    List (String × List (RObj × Nat)) :=
  match acc with
  | [] => [(p.1.otype, [p])]
  | (t, g) :: rest =>
    if t = p.1.otype then (t, g ++ [p]) :: rest else (t, g) :: addToGroup rest p

/-- `matches_grouped`: candidates grouped by `object_type`, preserving
Python dict insertion order. -/
def groupTypes (l : List (RObj × Nat)) : List (String × List (RObj × Nat)) :=
  l.foldl addToGroup []

/-- Per-candidate snapshot evaluation inside the group loop: objects without
a usable id evaluate to `("NO", none)`.  `snapsOf` abstracts the per-id
snapshot query. -/
def candEval (snapsOf : String → List Snap) (now : Int) (o : RObj) :
    String × Option Int :=
  match o.snappableId with
  | none => ("NO", none)
  | some sid => latest_snapshot_after_cutoff (snapsOf sid) now

/-- Current best of the group loop: `best_entry`, `best_weight`, `best_dt`,
`best_status`. -/
structure BestSt where
  obj : RObj
  weight : Nat
  dt : Option Int
  status : String
deriving Repr

/-- The tie-break date test of the winner loop:
`dt_obj and (best_dt is None or dt_obj > best_dt)`. -/
def dtBetter (x y : Option Int) : Bool :=
  match x, y with
  | some _, none => true
  | some d, some bd => decide (bd < d)
  | none, _ => false

/-- One iteration of the winner-selection loop: replace on strictly higher
weight, or on equal weight when this candidate has a parsed date later than
the current best (or the current best has none). -/
def bestStep (snapsOf : String → List Snap) (now : Int)
    (acc : Option BestSt) (p : RObj × Nat) : Option BestSt :=
  let r := candEval snapsOf now p.1
  match acc with
  | none => some ⟨p.1, p.2, r.2, r.1⟩
  | some b =>
    let rep : Bool :=
      decide (b.weight < p.2) || (p.2 == b.weight && dtBetter r.2 b.dt)
    if rep then some ⟨p.1, p.2, r.2, r.1⟩ else some b

/-- The full winner selection for one `object_type` group. -/
def groupBest (snapsOf : String → List Snap) (now : Int)
    (entries : List (RObj × Nat)) : Option BestSt :=
  entries.foldl (bestStep snapsOf now) none

/-- One row of `check_backups`' result list (string formatting of the
timestamp dropped: `lastBackup = none` stands for `"N/A"`). -/
structure Row where
  server : String
  otype : String
  cluster : String
  inRubrik : String
  filesetOrVm : String
  lastBackup : Option Int
  status : String
  sla : String
deriving Repr, DecidableEq

/-- The `in_rubrik = "NO"` placeholder row for an unmatched name. -/
def placeholderRow (srv : String) : Row :=
  ⟨srv, "N/A", "N/A", "NO", "N/A", none, "NO", "N/A"⟩

/-- The row emitted for one `object_type` group from its winner. -/
def rowOfBest (srv t : String) (b : BestSt) : Row :=
  ⟨srv, t, b.obj.cluster, "YES", b.obj.objectName, b.dt, b.status, b.obj.sla⟩

/-- All rows `check_backups` emits for one requested name. -/
def serverRows (snapsOf : String → List Snap) (now : Int)
    (objs : List RObj) (srv : String) : List Row :=
  let cands := matchesWithWeight srv objs
  if cands.isEmpty then [placeholderRow srv]
  else
    (groupTypes cands).filterMap (fun g =>
      (groupBest snapsOf now g.2).map (rowOfBest srv g.1))

end CheckBackup

namespace CombinedReport
/-!  `L2Backup/combined_backup_report.py` — remediation trigger
classification and the per-server loop of `main`.  -/

/-- `RubrikClient.trigger_on_demand_backup`, given the HTTP response
`(status code, body)`: returns `(triggered, already_running, error)`. -/
def trigger_on_demand_backup (status : Nat) (body : String) :
    Bool × Bool × Option String :=
  if status = 200 ∨ status = 201 ∨ status = 202 ∨ status = 204 then
    (true, false, none)
  else if status = 409 ∨ strContains (lowerStr body) ("running")
      ∨ strContains (lowerStr body) ("in progress") then
    (false, true, none)
  else
    (false, false, some ("HTTP " ++ toString status ++ ": " ++ strTake body 500))

/-- The VM record resolved by `get_vm_by_name`. -/
structure VMInfo where
  id : String
  sla : String
deriving Repr, DecidableEq

/-- `last_dt and last_dt >= cutoff` — freshness test of `main`. -/
def isFreshDt (cutoff : Int) (o : Option Int) : Bool :=
  match o with
  | some d => decide (cutoff ≤ d)
  | none => false

/-- `snap_status and snap_status in ("RUNNING", "IN_PROGRESS", "QUEUED")`. -/
def isRunningStatus (st : Option String) : Bool :=
  match st with
  | none => false
  | some s => s == "RUNNING" || s == "IN_PROGRESS" || s == "QUEUED"

/-- The per-server outcome of `main`'s loop; `trigTarget` records the object
id POSTed to by `trigger_on_demand_backup`, `none` when no trigger call was
made. -/
structure PRow where
  inRubrik : String
  status : String
  lastBackup : Option Int
  running : Bool
  triggered : Bool
  trigErr : Option String
  trigTarget : Option String
deriving Repr, DecidableEq

/-- One iteration of `main`'s server loop.  `lookup` abstracts
`get_vm_by_name`, `snapQ` abstracts `get_latest_snapshot` (latest snapshot
instant and its uppercased status), `trig` abstracts the HTTP trigger call;
`cutoff = now - STALE_HOURS`. -/
def processServer (lookup : String → Option VMInfo)
    (snapQ : String → Option Int × Option String)
    (trig : String → Bool × Bool × Option String)
    (cutoff : Int) (srv : String) : PRow :=
  match lookup srv with
  | none => ⟨"NO", "NO", none, false, false, none, none⟩
  | some vm =>
    let q := snapQ vm.id
    let running := isRunningStatus q.2
    let fresh : Bool := isFreshDt cutoff q.1
    if fresh then ⟨"YES", "YES", q.1, running, false, none, none⟩
    else if running then ⟨"YES", "NO", q.1, true, false, none, none⟩
    else
      let t := trig vm.id
      ⟨"YES", "NO", q.1, running || t.2.1, t.1, t.2.2, some vm.id⟩

/-- Insertion into the sorted duplicate-free server list
(`sorted(set(...))` in `main`). -/
def insertSortedSet (s : String) : List String → List String
  | [] => [s]
  | x :: xs =>
    if s = x then x :: xs
    else if strLt s x then s :: x :: xs
    else x :: insertSortedSet s xs

/-- `sorted(set(l))`. -/
def sortedSet (l : List String) : List String :=
  l.foldl (fun acc s => insertSortedSet s acc) []

/-- The deduplicated, sorted server list `main` builds from the tickets'
`nodes` (each ticket contributing its node list): normalized names
`node.strip().lower()` of the nodes whose stripped text is nonempty. -/
def buildServers (tickets : List (List String)) : List String :=
  sortedSet ((tickets.flatten.filter (fun n => pyStrip n ≠ "")).map
    (fun n => lowerStr (pyStrip n)))

/-- All object ids the run POSTs an on-demand backup for, in order. -/
def triggeredIds (lookup : String → Option VMInfo)
    (snapQ : String → Option Int × Option String)
    (trig : String → Bool × Bool × Option String)
    (cutoff : Int) (tickets : List (List String)) : List String :=
  (buildServers tickets).filterMap
    (fun s => (processServer lookup snapQ trig cutoff s).trigTarget)

end CombinedReport

namespace UpdateServicenow
/-!  `L2Backup/update_servicenow.py`, the per-record update loop.  -/

/-- `status = "OK" if status_raw == "YES" else "FAILED"` — `status_raw` is
`rec.get("status")`, so possibly absent. -/
def statusOf (statusRaw : Option String) : String :=
  if statusRaw = some "YES" then "OK" else "FAILED"

/-- `incident_state = "Resolved" if status == "OK" else "Active"`. -/
def incident_state_of (statusRaw : Option String) : String :=
  if statusOf statusRaw = "OK" then "Resolved" else "Active"

end UpdateServicenow

/-!  Derived predicates used to state the claims.  -/

/-- The first snapshot edge exists and its date parses (gate of the
`check_filesets.py` evaluator). -/
def headParsed (edges : List Snap) : Bool :=
  match edges with
  | [] => false
  | e :: _ => e.date.isSome

/-- Calendar-day freshness of one edge: parses, day-delta in `[0, S]`. -/
def fsStatusP (now S : Int) (e : Snap) : Bool :=
  match e.date with
  | some d => decide (0 ≤ dayOf now - dayOf d) && decide (dayOf now - dayOf d ≤ S)
  | none => false

/-- Calendar-day count membership of one edge: parses, day-delta in `[0, C]`. -/
def fsCountP (now C : Int) (e : Snap) : Bool :=
  match e.date with
  | some d => decide (0 ≤ dayOf now - dayOf d) && decide (dayOf now - dayOf d ≤ C)
  | none => false

/-- Rolling-window freshness of one edge: parses, not in the future,
within `rc ≤ d`. -/
def lbRecentP (now rc : Int) (e : Snap) : Bool :=
  match e.date with
  | some d => decide (d ≤ now) && decide (rc ≤ d)
  | none => false

/-- Retention-count membership of one edge for `check_last_backup.run`:
parses, not in the future, at or after the count cutoff `cc`. -/
def lbCountP (now cc : Int) (e : Snap) : Bool :=
  match e.date with
  | some d => decide (d ≤ now) && decide (cc ≤ d)
  | none => false

/-- The date of an edge when it parses and is not in the future. -/
def validDate (now : Int) (e : Snap) : Option Int :=
  match e.date with
  | some d => if d ≤ now then some d else none
  | none => none

/-- Keep an edge unless its parsed date lies strictly after `now`. -/
def noSkew (now : Int) (e : Snap) : Bool :=
  match e.date with
  | some d => decide (d ≤ now)
  | none => true

/-- Flip the on-demand flag of an edge (used to show the verdict of
`check_last_backup.run` ignores the flag). -/
def flipOd (e : Snap) : Snap := { e with isOnDemand := !e.isOnDemand }

/-- Order on optional instants with `none` as bottom (used to state the
tie-break of `check_backups`). -/
def optLe : Option Int → Option Int → Prop
  | none, _ => True
  | some _, none => False
  | some d, some m => d ≤ m

/-- The winner record carries the evaluator's output for its own object. -/
def bestConsistent (snapsOf : String → List Snap) (now : Int)
    (b : CheckBackup.BestSt) : Prop :=
  b.dt = (CheckBackup.candEval snapsOf now b.obj).2
    ∧ b.status = (CheckBackup.candEval snapsOf now b.obj).1

/-- `b` dominates candidate `p`: `p` has no higher weight, and on equal
weight `p`'s evaluator date is no later than `b`'s. -/
def dominates (snapsOf : String → List Snap) (now : Int)
    (b : CheckBackup.BestSt) (p : CheckBackup.RObj × Nat) : Prop :=
  p.2 ≤ b.weight
    ∧ (p.2 = b.weight → optLe (CheckBackup.candEval snapsOf now p.1).2 b.dt)

/-- Modelled from the spec: the rolling-window compliance policy with the
configurable `count_on_demand_as_compliant` flag, as the specification
words it — compliant iff some snapshot's timestamp is `≥ now - window`,
where with the flag off an on-demand snapshot does not qualify. -/
def rollingCompliantSpec (countOnDemand : Bool) (window now : Int)
    (edges : List Snap) : Bool :=
  edges.any (fun e =>
    match e.date with
    | some d => decide (now - window ≤ d) && (countOnDemand || !e.isOnDemand)
    | none => false)

/-!  ## Lemmas about the string helpers  -/

theorem dropWhile_drop_self (p : Char → Bool) (l : List Char) :
    (l.dropWhile p).dropWhile p = l.dropWhile p := by
  induction l with
  | nil => simp
  | cons a t ih =>
    by_cases h : p a
    · simp [List.dropWhile_cons, h, ih]
    · simp [List.dropWhile_cons, h]

theorem dropWhile_exists_drop (p : Char → Bool) (l : List Char) :
    ∃ n, l.dropWhile p = l.drop n := by
  induction l with
  | nil => exact ⟨0, rfl⟩
  | cons a t ih =>
    by_cases h : p a
    · obtain ⟨n, hn⟩ := ih
      exact ⟨n + 1, by simp [List.dropWhile_cons, h, hn]⟩
    · exact ⟨0, by simp [List.dropWhile_cons, h]⟩

theorem dropWhile_take (p : Char → Bool) (l : List Char) (n : Nat)
    (h : l.dropWhile p = l) : (l.take n).dropWhile p = l.take n := by
  cases l with
  | nil => simp
  | cons a t =>
    cases n with
    | zero => simp
    | succ k =>
      have ha : ¬ p a := by
        intro hp
        rw [List.dropWhile_cons, if_pos hp] at h
        obtain ⟨m, hm⟩ := dropWhile_exists_drop p t
        rw [hm] at h
        have := congrArg List.length h
        simp [List.length_drop] at this
        omega
      simp [List.take_succ_cons, List.dropWhile_cons, ha]

theorem stripList_fix (l : List Char) :
    List.dropWhile Char.isWhitespace
        ((List.dropWhile Char.isWhitespace
          (List.dropWhile Char.isWhitespace l).reverse).reverse)
      = (List.dropWhile Char.isWhitespace
          (List.dropWhile Char.isWhitespace l).reverse).reverse := by
  obtain ⟨n, hn⟩ :=
    dropWhile_exists_drop Char.isWhitespace (List.dropWhile Char.isWhitespace l).reverse
  rw [hn, List.reverse_drop, List.reverse_reverse]
  exact dropWhile_take _ _ _ (dropWhile_drop_self _ l)

theorem pyStrip_idem (s : String) : pyStrip (pyStrip s) = pyStrip s := by
  show String.mk _ = String.mk _
  congr 1
  have hd : (pyStrip s).data
      = (List.dropWhile Char.isWhitespace
          (List.dropWhile Char.isWhitespace s.data).reverse).reverse := rfl
  simp only [dropWs, hd]
  rw [stripList_fix s.data, List.reverse_reverse, dropWhile_drop_self]

theorem noDot_firstDotSeg (s : String) : ∀ c ∈ (firstDotSeg s).data, c ≠ '.' := by
  intro c hc
  have : c ∈ s.data.takeWhile (fun c => decide (c ≠ '.')) := hc
  simpa using List.mem_takeWhile_imp this

theorem firstDotSeg_noDot (s : String) (h : ∀ c ∈ s.data, c ≠ '.') :
    firstDotSeg s = s := by
  cases s with
  | mk l =>
    show String.mk _ = String.mk l
    congr 1
    exact List.takeWhile_eq_self_iff.mpr (by simpa using h)

theorem noDot_normalize (server : String) :
    ∀ c ∈ (CheckBackup.normalize_hostname server).data, c ≠ '.' := by
  unfold CheckBackup.normalize_hostname
  split_ifs with h
  · intro c hc; cases hc
  · exact noDot_firstDotSeg _

theorem normalize_of_stripped (x : String) (hx : pyStrip x = x) :
    CheckBackup.normalize_hostname x = firstDotSeg (lowerStr x) := by
  unfold CheckBackup.normalize_hostname
  split_ifs with h
  · rw [h]; rfl
  · rw [hx]

theorem mkEntry_serverNorm (raw : String) (sid : Option String)
    (fs cl sl pa ty : String) :
    (CheckBackup.mkEntry raw sid fs cl sl pa ty).serverNorm
      = firstDotSeg (CheckBackup.mkEntry raw sid fs cl sl pa ty).serverLower := by
  show CheckBackup.normalize_hostname (pyStrip (if raw = "" then "n/a" else raw))
      = firstDotSeg (lowerStr (pyStrip (if raw = "" then "n/a" else raw)))
  exact normalize_of_stripped _ (pyStrip_idem _)

/-!  ## Lemmas about the name matcher (`check_backup.py`)  -/

theorem target_serverLower_imp_norm (server raw : String) (sid : Option String)
    (fs cl sl pa ty : String)
    (h : CheckBackup.normalize_hostname server
        = (CheckBackup.mkEntry raw sid fs cl sl pa ty).serverLower) :
    CheckBackup.normalize_hostname server
      = (CheckBackup.mkEntry raw sid fs cl sl pa ty).serverNorm := by
  rw [mkEntry_serverNorm, ← h, firstDotSeg_noDot _ (noDot_normalize server)]

theorem mw_cases (server : String) (e : CheckBackup.RObj)
    (hsub : CheckBackup.normalize_hostname server = e.serverLower →
      CheckBackup.normalize_hostname server = e.serverNorm) :
    CheckBackup.match_weight server e =
      (if CheckBackup.normalize_hostname server = "" then 0
       else if CheckBackup.normalize_hostname server = e.serverNorm then 3
       else if strContains e.serverLower (CheckBackup.normalize_hostname server) then 2
       else if strContains e.path (CheckBackup.normalize_hostname server) then 1
       else 0) := by
  by_cases h0 : CheckBackup.normalize_hostname server = ""
  · simp [CheckBackup.match_weight, h0]
  · by_cases hn : CheckBackup.normalize_hostname server = e.serverNorm
    · simp [CheckBackup.match_weight, h0, hn]
    · have hl : ¬(CheckBackup.normalize_hostname server = e.serverLower) :=
        fun h => hn (hsub h)
      simp [CheckBackup.match_weight, h0, hn, hl]

/-- Claim C3, counterexample to the claim as stated: for the requested name
`"."` and a catalog entry whose display name is `"."`, the normalized
requested name equals the entry's normalized hostname (both are empty), yet
the match weight is 0, not 3. -/
theorem c3_counterexample :
    CheckBackup.match_weight (".") (CheckBackup.mkEntry (".") none ("") ("") ("") ("") ("")) = 0
    ∧ CheckBackup.normalize_hostname (".")
        = (CheckBackup.mkEntry (".") none ("") ("") ("") ("") ("")).serverNorm := by
  decide

/-- Claim C3 (amended): for every requested name and every ingested catalog
entry, the weight is 3 exactly when the normalized requested name is
nonempty and equals the entry's normalized hostname; otherwise 2 when it is
a substring of the entry's stored lowercased name; otherwise 1 when it is a
substring of the entry's path text; otherwise 0 — and `check_backups`
excludes weight-0 entries from the candidate set. -/
theorem c3_matcher_tiers (server raw : String) (sid : Option String)
    (fs cl sl pa ty : String) :
    (CheckBackup.match_weight server (CheckBackup.mkEntry raw sid fs cl sl pa ty) = 3 ↔
      CheckBackup.normalize_hostname server ≠ "" ∧
        CheckBackup.normalize_hostname server
          = (CheckBackup.mkEntry raw sid fs cl sl pa ty).serverNorm) ∧
    (CheckBackup.match_weight server (CheckBackup.mkEntry raw sid fs cl sl pa ty) = 2 ↔
      CheckBackup.normalize_hostname server ≠ "" ∧
        CheckBackup.normalize_hostname server
          ≠ (CheckBackup.mkEntry raw sid fs cl sl pa ty).serverNorm ∧
        strContains (CheckBackup.mkEntry raw sid fs cl sl pa ty).serverLower
          (CheckBackup.normalize_hostname server) = true) ∧
    (CheckBackup.match_weight server (CheckBackup.mkEntry raw sid fs cl sl pa ty) = 1 ↔
      CheckBackup.normalize_hostname server ≠ "" ∧
        CheckBackup.normalize_hostname server
          ≠ (CheckBackup.mkEntry raw sid fs cl sl pa ty).serverNorm ∧
        strContains (CheckBackup.mkEntry raw sid fs cl sl pa ty).serverLower
          (CheckBackup.normalize_hostname server) = false ∧
        strContains (CheckBackup.mkEntry raw sid fs cl sl pa ty).path
          (CheckBackup.normalize_hostname server) = true) ∧
    (∀ objs : List CheckBackup.RObj, ∀ o w,
      (o, w) ∈ CheckBackup.matchesWithWeight server objs ↔
        o ∈ objs ∧ w = CheckBackup.match_weight server o ∧ w ≠ 0) := by
  have hsub := target_serverLower_imp_norm server raw sid fs cl sl pa ty
  have hmw := mw_cases server (CheckBackup.mkEntry raw sid fs cl sl pa ty) hsub
  refine ⟨?_, ?_, ?_, ?_⟩
  · rw [hmw]; split_ifs <;> simp_all
  · rw [hmw]; split_ifs <;> simp_all
  · rw [hmw]; split_ifs <;> simp_all
  · intro objs o w
    unfold CheckBackup.matchesWithWeight
    simp only [List.mem_filterMap]
    constructor
    · rintro ⟨a, ha, hfa⟩
      by_cases hz : CheckBackup.match_weight server a ≠ 0
      · rw [if_pos hz] at hfa
        have h := Option.some.inj hfa
        have h1 : a = o := congrArg Prod.fst h
        have h2 : CheckBackup.match_weight server a = w := congrArg Prod.snd h
        subst h1
        exact ⟨ha, h2.symm, h2 ▸ hz⟩
      · rw [if_neg hz] at hfa
        cases hfa
    · rintro ⟨ho, hw, hz⟩
      refine ⟨o, ho, ?_⟩
      simp only [← hw]
      rw [if_pos hz]

/-!  ## Lemmas about the running maximum  -/

theorem someMax_isSome (o : Option Int) (d : Int) : ∃ m, someMax o d = some m := by
  cases o with
  | none => exact ⟨d, rfl⟩
  | some a =>
    by_cases h : d > a
    · exact ⟨d, by simp [someMax, h]⟩
    · exact ⟨a, by simp [someMax, h]⟩

theorem foldlMax_isSome (l : List Int) :
    ∀ m, ∃ k, l.foldl someMax (some m) = some k := by
  induction l with
  | nil => exact fun m => ⟨m, rfl⟩
  | cons d t ih =>
    intro m
    obtain ⟨a, ha⟩ := someMax_isSome (some m) d
    simpa [List.foldl_cons, ha] using ih a

theorem foldlMax_none_iff (l : List Int) (o : Option Int) :
    l.foldl someMax o = none ↔ o = none ∧ l = [] := by
  cases l with
  | nil => simp
  | cons d t =>
    obtain ⟨a, ha⟩ := someMax_isSome o d
    obtain ⟨k, hk⟩ := foldlMax_isSome t a
    simp [List.foldl_cons, ha, hk]

theorem foldlMax_mem (l : List Int) :
    ∀ o m, l.foldl someMax o = some m → o = some m ∨ m ∈ l := by
  induction l with
  | nil => exact fun o m h => Or.inl h
  | cons d t ih =>
    intro o m h
    rcases ih (someMax o d) m h with h1 | h1
    · cases o with
      | none =>
        simp [someMax] at h1
        exact Or.inr (by simp [h1])
      | some a =>
        by_cases hd : d > a
        · simp [someMax, hd] at h1
          exact Or.inr (by simp [h1])
        · simp [someMax, hd] at h1
          exact Or.inl (by simp [h1])
    · exact Or.inr (List.mem_cons_of_mem _ h1)

theorem foldlMax_ub (l : List Int) :
    ∀ o m, l.foldl someMax o = some m →
      (∀ d ∈ l, d ≤ m) ∧ (∀ a, o = some a → a ≤ m) := by
  induction l with
  | nil =>
    intro o m h
    exact ⟨by simp, fun a ha => by rw [ha] at h; exact le_of_eq (Option.some.inj h)⟩
  | cons d t ih =>
    intro o m h
    obtain ⟨ht, hinit⟩ := ih (someMax o d) m h
    have hd : d ≤ m := by
      cases o with
      | none => exact hinit d rfl
      | some a =>
        by_cases hda : d > a
        · exact hinit d (by simp [someMax, hda])
        · have := hinit a (by simp [someMax, hda])
          omega
    refine ⟨fun x hx => ?_, fun a ha => ?_⟩
    · rcases List.mem_cons.mp hx with h1 | h1
      · omega
      · exact ht x h1
    · cases o with
      | none => cases ha
      | some b =>
        have hb : b = a := Option.some.inj ha
        subst hb
        by_cases hdb : d > b
        · have := hinit d (by simp [someMax, hdb])
          omega
        · exact hinit b (by simp [someMax, hdb])

theorem foldlMax_char (l : List Int) (m : Int) :
    l.foldl someMax none = some m ↔ m ∈ l ∧ ∀ d ∈ l, d ≤ m := by
  constructor
  · intro h
    rcases foldlMax_mem l none m h with h1 | h1
    · cases h1
    · exact ⟨h1, (foldlMax_ub l none m h).1⟩
  · rintro ⟨hmem, hub⟩
    cases hr : l.foldl someMax none with
    | none =>
      obtain ⟨-, hl⟩ := (foldlMax_none_iff l none).mp hr
      rw [hl] at hmem
      cases hmem
    | some k =>
      rcases foldlMax_mem l none k hr with h1 | h1
      · cases h1
      · have h2 : k ≤ m := hub k h1
        have h3 : m ≤ k := (foldlMax_ub l none k hr).1 m hmem
        rw [le_antisymm h3 h2]

/-!  ## Lemmas about the `check_last_backup.run` snapshot loop  -/

theorem lbFold_cnt (now rc cc : Int) (edges : List Snap) :
    ∀ init : CheckLastBackup.LBState,
      (edges.foldl (CheckLastBackup.lbStep now rc cc) init).cnt
        = init.cnt + edges.countP (lbCountP now cc) := by
  induction edges with
  | nil => intro init; simp
  | cons e t ih =>
    intro init
    rw [List.foldl_cons, List.countP_cons]
    cases hdt : e.date with
    | none =>
      simp [CheckLastBackup.lbStep, hdt, lbCountP, ih]
    | some d =>
      by_cases hfut : d > now
      · have hnle : ¬ d ≤ now := by omega
        have hp : lbCountP now cc e = false := by simp [lbCountP, hdt, hnle]
        simp [CheckLastBackup.lbStep, hdt, hfut, hp, ih]
      · have hle : d ≤ now := by omega
        have hp : lbCountP now cc e = decide (cc ≤ d) := by
          simp [lbCountP, hdt, hle]
        by_cases hrc : d ≥ rc
        · cases hod : e.isOnDemand
          · simp [CheckLastBackup.lbStep, hdt, hfut, hrc, hod, ih, hp]
            omega
          · simp [CheckLastBackup.lbStep, hdt, hfut, hrc, hod, ih, hp]
            omega
        · simp [CheckLastBackup.lbStep, hdt, hfut, hrc, ih, hp]
          omega

theorem lbFold_nonOd (now rc cc : Int) (edges : List Snap) :
    ∀ init : CheckLastBackup.LBState,
      ((edges.foldl (CheckLastBackup.lbStep now rc cc) init).nonOd).isSome
        = (init.nonOd.isSome
            || edges.any (fun e => lbRecentP now rc e && !e.isOnDemand)) := by
  induction edges with
  | nil => intro init; simp
  | cons e t ih =>
    intro init
    rw [List.foldl_cons, List.any_cons]
    cases hdt : e.date with
    | none =>
      simp [CheckLastBackup.lbStep, hdt, lbRecentP, ih]
    | some d =>
      by_cases hfut : d > now
      · have hnle : ¬ d ≤ now := by omega
        have hp : lbRecentP now rc e = false := by simp [lbRecentP, hdt, hnle]
        simp [CheckLastBackup.lbStep, hdt, hfut, hp, ih]
      · have hle : d ≤ now := by omega
        by_cases hrc : d ≥ rc
        · have hp : lbRecentP now rc e = true := by
            simp [lbRecentP, hdt, hle]; omega
          cases hod : e.isOnDemand
          · obtain ⟨m, hm⟩ := someMax_isSome init.nonOd d
            simp [CheckLastBackup.lbStep, hdt, hfut, hrc, hod, ih, hp, hm]
          · simp [CheckLastBackup.lbStep, hdt, hfut, hrc, hod, ih, hp]
        · have hp : lbRecentP now rc e = false := by
            have hnrc : ¬ rc ≤ d := by omega
            simp [lbRecentP, hdt, hnrc]
          simp [CheckLastBackup.lbStep, hdt, hfut, hrc, ih, hp]

theorem lbFold_od (now rc cc : Int) (edges : List Snap) :
    ∀ init : CheckLastBackup.LBState,
      ((edges.foldl (CheckLastBackup.lbStep now rc cc) init).od).isSome
        = (init.od.isSome
            || edges.any (fun e => lbRecentP now rc e && e.isOnDemand)) := by
  induction edges with
  | nil => intro init; simp
  | cons e t ih =>
    intro init
    rw [List.foldl_cons, List.any_cons]
    cases hdt : e.date with
    | none =>
      simp [CheckLastBackup.lbStep, hdt, lbRecentP, ih]
    | some d =>
      by_cases hfut : d > now
      · have hnle : ¬ d ≤ now := by omega
        have hp : lbRecentP now rc e = false := by simp [lbRecentP, hdt, hnle]
        simp [CheckLastBackup.lbStep, hdt, hfut, hp, ih]
      · have hle : d ≤ now := by omega
        by_cases hrc : d ≥ rc
        · have hp : lbRecentP now rc e = true := by
            simp [lbRecentP, hdt, hle]; omega
          cases hod : e.isOnDemand
          · simp [CheckLastBackup.lbStep, hdt, hfut, hrc, hod, ih, hp]
          · obtain ⟨m, hm⟩ := someMax_isSome init.od d
            simp [CheckLastBackup.lbStep, hdt, hfut, hrc, hod, ih, hp, hm]
        · have hp : lbRecentP now rc e = false := by
            have hnrc : ¬ rc ≤ d := by omega
            simp [lbRecentP, hdt, hnrc]
          simp [CheckLastBackup.lbStep, hdt, hfut, hrc, ih, hp]

theorem lbFold_latest (now rc cc : Int) (edges : List Snap) :
    ∀ init : CheckLastBackup.LBState,
      (edges.foldl (CheckLastBackup.lbStep now rc cc) init).latest
        = (edges.filterMap (validDate now)).foldl someMax init.latest := by
  induction edges with
  | nil => intro init; simp
  | cons e t ih =>
    intro init
    rw [List.foldl_cons]
    cases hdt : e.date with
    | none =>
      simp [CheckLastBackup.lbStep, hdt, validDate, ih]
    | some d =>
      by_cases hfut : d > now
      · have hnle : ¬ d ≤ now := by omega
        simp [CheckLastBackup.lbStep, hdt, hfut, validDate, hnle, ih]
      · have hle : d ≤ now := by omega
        by_cases hrc : d ≥ rc
        · cases hod : e.isOnDemand
          · simp [CheckLastBackup.lbStep, hdt, hfut, hrc, hod, validDate, hle, ih]
          · simp [CheckLastBackup.lbStep, hdt, hfut, hrc, hod, validDate, hle, ih]
        · simp [CheckLastBackup.lbStep, hdt, hfut, hrc, validDate, hle, ih]

theorem foldl_filter_id {α β : Type} (f : β → α → β) (keep : α → Bool)
    (hid : ∀ a, keep a = false → ∀ acc, f acc a = acc) (l : List α) :
    ∀ acc, (l.filter keep).foldl f acc = l.foldl f acc := by
  induction l with
  | nil => intro acc; rfl
  | cons a t ih =>
    intro acc
    cases hk : keep a
    · rw [List.filter_cons_of_neg (by simp [hk]), List.foldl_cons, hid a hk acc, ih]
    · rw [List.filter_cons_of_pos hk, List.foldl_cons, List.foldl_cons, ih]

/-!  ## Lemmas about the `check_filesets.py` snapshot loop  -/

theorem fsFold_fst (now S C : Int) (edges : List Snap) :
    ∀ init : Bool × Nat,
      (edges.foldl (CheckFilesets.fsStep now S C) init).1
        = (init.1 || edges.any (fsStatusP now S)) := by
  induction edges with
  | nil => intro init; simp
  | cons e t ih =>
    intro init
    rw [List.foldl_cons, List.any_cons]
    cases hdt : e.date with
    | none =>
      simp [CheckFilesets.fsStep, hdt, fsStatusP, ih]
    | some d =>
      by_cases hneg : dayOf now - dayOf d < 0
      · have hp : fsStatusP now S e = false := by
          have : ¬ (0 : Int) ≤ dayOf now - dayOf d := by omega
          simp [fsStatusP, hdt, this]

        simp [CheckFilesets.fsStep, hdt, hneg, hp, ih]
      · have h0 : (0 : Int) ≤ dayOf now - dayOf d := by omega
        have hp : fsStatusP now S e = decide (dayOf now - dayOf d ≤ S) := by
          simp [fsStatusP, hdt, h0]
        simp [CheckFilesets.fsStep, hdt, hneg, hp, ih, Bool.or_assoc]

theorem fsFold_snd (now S C : Int) (edges : List Snap) :
    ∀ init : Bool × Nat,
      (edges.foldl (CheckFilesets.fsStep now S C) init).2
        = init.2 + edges.countP (fsCountP now C) := by
  induction edges with
  | nil => intro init; simp
  | cons e t ih =>
    intro init
    rw [List.foldl_cons, List.countP_cons]
    cases hdt : e.date with
    | none =>
      simp [CheckFilesets.fsStep, hdt, fsCountP, ih]
    | some d =>
      by_cases hneg : dayOf now - dayOf d < 0
      · have hp : fsCountP now C e = false := by
          have : ¬ (0 : Int) ≤ dayOf now - dayOf d := by omega
          simp [fsCountP, hdt, this]
        simp [CheckFilesets.fsStep, hdt, hneg, hp, ih]
      · have h0 : (0 : Int) ≤ dayOf now - dayOf d := by omega
        have hp : fsCountP now C e = decide (dayOf now - dayOf d ≤ C) := by
          simp [fsCountP, hdt, h0]
        simp [CheckFilesets.fsStep, hdt, hneg, hp, ih]
        omega

/-!  ## Characterizations of the three snapshot evaluators  -/

theorem yes_no_iff (b : Bool) :
    (if b = true then ("YES" : String) else "NO") = "YES" ↔ b = true := by
  cases b with
  | false =>
    simp only [Bool.false_eq_true, if_false]
    constructor
    · intro h; exact absurd h (by decide)
    · intro h; cases h
  | true => simp

theorem fs_status_iff (edges : List Snap) (now S C : Int) :
    (CheckFilesets.latest_snapshot_after_cutoff edges now S C).1 = "YES"
      ↔ headParsed edges = true ∧ ∃ e ∈ edges, fsStatusP now S e = true := by
  cases edges with
  | nil => simp [CheckFilesets.latest_snapshot_after_cutoff, headParsed]
  | cons e0 t =>
    cases hdt : e0.date with
    | none =>
      simp [CheckFilesets.latest_snapshot_after_cutoff, hdt, headParsed]
    | some d0 =>
      have hfold := fsFold_fst now S C (e0 :: t) (false, 0)
      simp only [CheckFilesets.latest_snapshot_after_cutoff, hdt, headParsed,
        Option.isSome_some]
      rw [yes_no_iff, hfold]
      simp [List.any_eq_true]

theorem fs_last_eq (edges : List Snap) (now S C : Int) :
    (CheckFilesets.latest_snapshot_after_cutoff edges now S C).2.1
      = edges.head?.bind Snap.date := by
  cases edges with
  | nil => simp [CheckFilesets.latest_snapshot_after_cutoff]
  | cons e0 t =>
    cases hdt : e0.date with
    | none => simp [CheckFilesets.latest_snapshot_after_cutoff, hdt]
    | some d0 => simp [CheckFilesets.latest_snapshot_after_cutoff, hdt]

theorem fs_cnt_eq (edges : List Snap) (now S C : Int) :
    (CheckFilesets.latest_snapshot_after_cutoff edges now S C).2.2
      = (if headParsed edges then edges.countP (fsCountP now C) else 0) := by
  cases edges with
  | nil => simp [CheckFilesets.latest_snapshot_after_cutoff, headParsed]
  | cons e0 t =>
    cases hdt : e0.date with
    | none => simp [CheckFilesets.latest_snapshot_after_cutoff, hdt, headParsed]
    | some d0 =>
      have hfold := fsFold_snd now S C (e0 :: t) (false, 0)
      simp only [CheckFilesets.latest_snapshot_after_cutoff, hdt, headParsed,
        Option.isSome_some, if_true]
      rw [hfold]
      simp

theorem check_status_iff (edges : List Snap) (now : Int) :
    (Check.latest_snapshot_after_cutoff edges now).1 = "YES"
      ↔ ∃ e rest, edges = e :: rest ∧ ∃ d, e.date = some d
          ∧ (dayOf now - dayOf d = 0 ∨ dayOf now - dayOf d = 1) := by
  cases edges with
  | nil => simp [Check.latest_snapshot_after_cutoff]
  | cons e0 t =>
    cases hdt : e0.date with
    | none =>
      simp [Check.latest_snapshot_after_cutoff, hdt]
    | some d0 =>
      simp only [Check.latest_snapshot_after_cutoff, hdt]
      constructor
      · intro h
        split_ifs at h with hc
        · exact ⟨e0, t, rfl, d0, hdt, hc⟩
        · exact absurd h (by decide)
      · rintro ⟨e, rest, heq, d, hd, hc⟩
        obtain ⟨he, -⟩ := List.cons.inj heq
        subst he
        rw [hdt] at hd
        have hdd : d = d0 := Option.some.inj hd.symm
        subst hdd
        simp [hc]

theorem evalServer_status_iff (edges : List Snap) (now W C : Int) :
    (CheckLastBackup.evalServer edges now W C).1 = "YES"
      ↔ ∃ e ∈ edges, ∃ d, e.date = some d ∧ d ≤ now ∧ now - W * 3600 ≤ d := by
  have hn := lbFold_nonOd now (now - W * 3600) (now - C * 86400) edges
    ⟨none, none, none, 0⟩
  have ho := lbFold_od now (now - W * 3600) (now - C * 86400) edges
    ⟨none, none, none, 0⟩
  simp only [CheckLastBackup.evalServer, CheckLastBackup.lbFold]
  rw [yes_no_iff, hn, ho]
  simp only [Option.isSome_none, Bool.false_or, Bool.or_eq_true, List.any_eq_true]
  constructor
  · intro hb
    rcases hb with ⟨e, he, hp⟩ | ⟨e, he, hp⟩ <;>
    · rw [Bool.and_eq_true] at hp
      obtain ⟨hr, -⟩ := hp
      cases hdt : e.date with
      | none => simp only [lbRecentP, hdt] at hr; cases hr
      | some d =>
        simp only [lbRecentP, hdt, Bool.and_eq_true, decide_eq_true_eq] at hr
        exact ⟨e, he, d, hdt, hr.1, hr.2⟩
  · rintro ⟨e, he, d, hdt, hle, hrc⟩
    have hr : lbRecentP now (now - W * 3600) e = true := by
      simp only [lbRecentP, hdt, Bool.and_eq_true, decide_eq_true_eq]
      exact ⟨hle, hrc⟩
    cases hod : e.isOnDemand
    · exact Or.inl ⟨e, he, by rw [hr, hod]; rfl⟩
    · exact Or.inr ⟨e, he, by rw [hr, hod]; rfl⟩

theorem validDate_eq_some (now : Int) (e : Snap) (m : Int) :
    validDate now e = some m ↔ e.date = some m ∧ m ≤ now := by
  cases hdt : e.date with
  | none => simp [validDate, hdt]
  | some d =>
    simp only [validDate, hdt]
    split_ifs with h
    · constructor
      · intro hm
        have hdm : d = m := Option.some.inj hm
        subst hdm
        exact ⟨rfl, h⟩
      · rintro ⟨h1, -⟩
        exact h1
    · constructor
      · intro hm; cases hm
      · rintro ⟨h1, h2⟩
        have hdm : d = m := Option.some.inj h1
        subst hdm
        exact absurd h2 h

theorem evalServer_latest_char (edges : List Snap) (now W C : Int) (m : Int) :
    (CheckLastBackup.evalServer edges now W C).2.1 = some m
      ↔ (∃ e ∈ edges, e.date = some m ∧ m ≤ now)
          ∧ ∀ e ∈ edges, ∀ d, e.date = some d → d ≤ now → d ≤ m := by
  have hl := lbFold_latest now (now - W * 3600) (now - C * 86400) edges
    ⟨none, none, none, 0⟩
  simp only [CheckLastBackup.evalServer, CheckLastBackup.lbFold]
  rw [hl, foldlMax_char]
  constructor
  · rintro ⟨hmem, hub⟩
    obtain ⟨e, he, hv⟩ := List.mem_filterMap.mp hmem
    refine ⟨⟨e, he, (validDate_eq_some now e m).mp hv⟩, ?_⟩
    intro e2 he2 d hd hle
    exact hub d (List.mem_filterMap.mpr
      ⟨e2, he2, (validDate_eq_some now e2 d).mpr ⟨hd, hle⟩⟩)
  · rintro ⟨⟨e, he, hd, hle⟩, hub⟩
    refine ⟨List.mem_filterMap.mpr ⟨e, he, (validDate_eq_some now e m).mpr ⟨hd, hle⟩⟩, ?_⟩
    intro d hd2
    obtain ⟨e2, he2, hv⟩ := List.mem_filterMap.mp hd2
    obtain ⟨hd3, hle3⟩ := (validDate_eq_some now e2 d).mp hv
    exact hub e2 he2 d hd3 hle3

theorem evalServer_cnt_eq (edges : List Snap) (now W C : Int) :
    (CheckLastBackup.evalServer edges now W C).2.2
      = edges.countP (lbCountP now (now - C * 86400)) := by
  have hc := lbFold_cnt now (now - W * 3600) (now - C * 86400) edges
    ⟨none, none, none, 0⟩
  simp only [CheckLastBackup.evalServer, CheckLastBackup.lbFold]
  simpa using hc

theorem evalServer_noskew (edges : List Snap) (now W C : Int) :
    CheckLastBackup.evalServer edges now W C
      = CheckLastBackup.evalServer (edges.filter (noSkew now)) now W C := by
  have hid : ∀ e, noSkew now e = false →
      ∀ acc, CheckLastBackup.lbStep now (now - W * 3600) (now - C * 86400) acc e = acc := by
    intro e hk acc
    cases hdt : e.date with
    | none => simp only [noSkew, hdt] at hk; cases hk
    | some d =>
      simp only [noSkew, hdt, decide_eq_false_iff_not, not_le] at hk
      simp [CheckLastBackup.lbStep, hdt, hk]
  have hfold := foldl_filter_id _ _ hid edges
    (⟨none, none, none, 0⟩ : CheckLastBackup.LBState)
  simp only [CheckLastBackup.evalServer, CheckLastBackup.lbFold, hfold]

/-!  ## Claims C1, C2, C5, C6, C7 — the snapshot evaluators  -/

/-- Claim C1, counterexample to the claim as stated: a single snapshot at
`2024-01-02T00:05:00Z` has day-delta 2 from `now = 2024-01-04T00:10:00Z`,
and `check_filesets.py` (with its default `STATUS_WINDOW_DAYS = 2`,
`COUNT_WINDOW_DAYS = 60`) reports it compliant, where the claim demands
non-compliant; and `check.py` reports `"NO"` for a list whose second
snapshot has day-delta 1, where the claim ("some snapshot") demands
compliant. -/
theorem c1_counterexample :
    (CheckFilesets.latest_snapshot_after_cutoff
        [⟨some 1704153900, false, "G"⟩] 1704327000 2 60).1 = "YES"
    ∧ dayOf 1704327000 - dayOf 1704153900 = 2
    ∧ (Check.latest_snapshot_after_cutoff
        [⟨some 1704153900, false, "G"⟩, ⟨some 1704240300, false, "G"⟩]
        1704327000).1 = "NO"
    ∧ dayOf 1704327000 - dayOf 1704240300 = 1 := by
  decide

/-- Claim C1 (amended): `check.py::latest_snapshot_after_cutoff` reports
`"YES"` iff the **first** listed snapshot parses and its UTC calendar-day
delta from `now` is 0 or 1; `check_filesets.py::latest_snapshot_after_cutoff`
reports `"YES"` iff the first listed snapshot parses and **some** snapshot's
day-delta lies in `[0, STATUS_WINDOW_DAYS]` (default 2 — so a day-delta-2
snapshot is compliant there by default). -/
theorem c1_calendar_day (edges1 edges2 : List Snap) (now S C : Int) :
    ((Check.latest_snapshot_after_cutoff edges1 now).1 = "YES"
      ↔ ∃ e rest, edges1 = e :: rest ∧ ∃ d, e.date = some d
          ∧ (dayOf now - dayOf d = 0 ∨ dayOf now - dayOf d = 1)) ∧
    ((CheckFilesets.latest_snapshot_after_cutoff edges2 now S C).1 = "YES"
      ↔ headParsed edges2 = true ∧ ∃ e ∈ edges2, fsStatusP now S e = true) :=
  ⟨check_status_iff edges1 now, fs_status_iff edges2 now S C⟩

/-- Claim C2, counterexample to the claim as stated: `check_last_backup.run`
has no `count_on_demand_as_compliant` flag — a single on-demand snapshot at
`now - 2h` is reported compliant, although the claim says that with the
flag false (modelled by `rollingCompliantSpec false`) it must not be. -/
theorem c2_counterexample :
    (CheckLastBackup.evalServer [⟨some (-7200), true, "G"⟩] 0 24 60).1 = "YES"
    ∧ rollingCompliantSpec false (24 * 3600) 0 [⟨some (-7200), true, "G"⟩] = false := by
  decide

/-- Claim C2 (amended): `check_last_backup.run` reports compliant iff at
least one snapshot parses, is not in the future, and has
`timestamp ≥ now - freshness_window`; on-demand snapshots always count —
the verdict is invariant under flipping every on-demand flag, and no
`count_on_demand_as_compliant` configuration exists. -/
theorem c2_rolling_window (edges : List Snap) (now W C : Int) :
    ((CheckLastBackup.evalServer edges now W C).1 = "YES"
      ↔ ∃ e ∈ edges, ∃ d, e.date = some d ∧ d ≤ now ∧ now - W * 3600 ≤ d) ∧
    (CheckLastBackup.evalServer (edges.map flipOd) now W C).1
      = (CheckLastBackup.evalServer edges now W C).1 := by
  refine ⟨evalServer_status_iff edges now W C, ?_⟩
  have hn1 := lbFold_nonOd now (now - W * 3600) (now - C * 86400) (edges.map flipOd)
    ⟨none, none, none, 0⟩
  have ho1 := lbFold_od now (now - W * 3600) (now - C * 86400) (edges.map flipOd)
    ⟨none, none, none, 0⟩
  have hn2 := lbFold_nonOd now (now - W * 3600) (now - C * 86400) edges
    ⟨none, none, none, 0⟩
  have ho2 := lbFold_od now (now - W * 3600) (now - C * 86400) edges
    ⟨none, none, none, 0⟩
  have h1 : ((fun e => lbRecentP now (now - W * 3600) e && !e.isOnDemand) ∘ flipOd)
      = fun e => lbRecentP now (now - W * 3600) e && e.isOnDemand := by
    funext e
    cases e with
    | mk dt od sl => simp [flipOd, lbRecentP, Function.comp]
  have h2 : ((fun e => lbRecentP now (now - W * 3600) e && e.isOnDemand) ∘ flipOd)
      = fun e => lbRecentP now (now - W * 3600) e && !e.isOnDemand := by
    funext e
    cases e with
    | mk dt od sl => simp [flipOd, lbRecentP, Function.comp]
  simp only [CheckLastBackup.evalServer, CheckLastBackup.lbFold, hn1, ho1, hn2, ho2,
    List.any_map, h1, h2, Option.isSome_none, Bool.false_or]
  rw [Bool.or_comm]

/-- Claim C5, counterexample to the claim as stated:
`check_filesets.py::latest_snapshot_after_cutoff` reports the **first**
listed snapshot's timestamp as `last_backup`, not the maximum — for the
oldest-first list it reports the older timestamp, and permuting the two
snapshots changes the report. -/
theorem c5_counterexample :
    (CheckFilesets.latest_snapshot_after_cutoff
        [⟨some 0, false, "G"⟩, ⟨some 86400, false, "G"⟩] 864000 2 60).2.1 = some 0
    ∧ (CheckFilesets.latest_snapshot_after_cutoff
        [⟨some 86400, false, "G"⟩, ⟨some 0, false, "G"⟩] 864000 2 60).2.1 = some 86400
    ∧ (0 : Int) ≠ 86400 := by
  decide

/-- Claim C5 (amended): `check_last_backup.run` reports `last_backup` as the
maximum timestamp over all parseable, non-future snapshots — independent of
both window parameters (so it is reported also when non-compliant),
invariant under permutation of the snapshot list; whereas
`check_filesets.py` reports the first listed snapshot's date, an
order-dependent value. -/
theorem c5_last_backup (edges edges2 : List Snap) (now W C W2 C2 S C3 m : Int)
    (hperm : edges.Perm edges2) :
    ((CheckLastBackup.evalServer edges now W C).2.1 = some m
      ↔ (∃ e ∈ edges, e.date = some m ∧ m ≤ now)
          ∧ ∀ e ∈ edges, ∀ d, e.date = some d → d ≤ now → d ≤ m) ∧
    ((CheckLastBackup.evalServer edges now W C).2.1
      = (CheckLastBackup.evalServer edges now W2 C2).2.1) ∧
    ((CheckLastBackup.evalServer edges now W C).2.1
      = (CheckLastBackup.evalServer edges2 now W C).2.1) ∧
    ((CheckFilesets.latest_snapshot_after_cutoff edges now S C3).2.1
      = edges.head?.bind Snap.date) := by
  refine ⟨evalServer_latest_char edges now W C m, ?_, ?_, fs_last_eq edges now S C3⟩
  · have ha := lbFold_latest now (now - W * 3600) (now - C * 86400) edges
      ⟨none, none, none, 0⟩
    have hb := lbFold_latest now (now - W2 * 3600) (now - C2 * 86400) edges
      ⟨none, none, none, 0⟩
    simp only [CheckLastBackup.evalServer, CheckLastBackup.lbFold, ha, hb]
  · cases hres : (CheckLastBackup.evalServer edges now W C).2.1 with
    | none =>
      have ha := lbFold_latest now (now - W * 3600) (now - C * 86400) edges
        ⟨none, none, none, 0⟩
      have hb := lbFold_latest now (now - W * 3600) (now - C * 86400) edges2
        ⟨none, none, none, 0⟩
      simp only [CheckLastBackup.evalServer, CheckLastBackup.lbFold, ha] at hres
      obtain ⟨-, hnil⟩ := (foldlMax_none_iff _ _).mp hres
      have hp2 := (hperm.filterMap (validDate now)).symm
      rw [hnil] at hp2
      have hnil2 : edges2.filterMap (validDate now) = [] := hp2.eq_nil
      simp only [CheckLastBackup.evalServer, CheckLastBackup.lbFold, hb, hnil2]
      rfl
    | some k =>
      obtain ⟨⟨e, he, hd, hle⟩, hub⟩ :=
        (evalServer_latest_char edges now W C k).mp hres
      exact ((evalServer_latest_char edges2 now W C k).mpr
        ⟨⟨e, hperm.mem_iff.mp he, hd, hle⟩,
          fun e2 he2 d hd2 hle2 =>
            hub e2 (hperm.mem_iff.mpr he2) d hd2 hle2⟩).symm

/-- Witness for C5 at a concrete permutation. -/
theorem c5_last_backup_witness :
    (CheckLastBackup.evalServer [⟨some 0, false, "G"⟩, ⟨some 86400, false, "G"⟩]
        864000 24 60).2.1
      = (CheckLastBackup.evalServer [⟨some 86400, false, "G"⟩, ⟨some 0, false, "G"⟩]
        864000 24 60).2.1 :=
  (c5_last_backup [⟨some 0, false, "G"⟩, ⟨some 86400, false, "G"⟩]
    [⟨some 86400, false, "G"⟩, ⟨some 0, false, "G"⟩]
    864000 24 60 24 60 2 60 0 (by decide)).2.2.1

/-- Claim C6, counterexample to the claim as stated: a snapshot one hour in
the future (same UTC day as `now`) is not excluded by
`check_filesets.py::latest_snapshot_after_cutoff`: it drives the verdict to
`"YES"`, is counted in the retention count, and is reported as the last
backup. -/
theorem c6_counterexample :
    CheckFilesets.latest_snapshot_after_cutoff
        [⟨some 1704157200, false, "G"⟩] 1704153600 2 60
      = ("YES", some 1704157200, 1) := by
  decide

/-- Claim C6 (amended): `check_last_backup.run` excludes snapshots with
`timestamp > now` from the verdict, the count and `last_backup` (filtering
them away changes nothing); `check_filesets.py` instead reports the first
listed snapshot's date unconditionally (future or not), and its verdict and
count exclude a snapshot only when its UTC calendar day is strictly after
`now`'s day. -/
theorem c6_clock_skew (edges : List Snap) (now W C S C2 : Int) :
    (CheckLastBackup.evalServer edges now W C
      = CheckLastBackup.evalServer (edges.filter (noSkew now)) now W C) ∧
    ((CheckFilesets.latest_snapshot_after_cutoff edges now S C2).2.1
      = edges.head?.bind Snap.date) ∧
    ((CheckFilesets.latest_snapshot_after_cutoff edges now S C2).2.2
      = if headParsed edges then edges.countP (fsCountP now C2) else 0) ∧
    ((CheckFilesets.latest_snapshot_after_cutoff edges now S C2).1 = "YES"
      ↔ headParsed edges = true ∧ ∃ e ∈ edges, fsStatusP now S e = true) :=
  ⟨evalServer_noskew edges now W C, fs_last_eq edges now S C2,
    fs_cnt_eq edges now S C2, fs_status_iff edges now S C2⟩

/-- Claim C7: in both evaluators, when the retention window is at least the
freshness window, a compliant verdict forces a retention count of at
least 1. -/
theorem c7_retention_lower_bound (edges1 edges2 : List Snap) (now W C S C2 : Int)
    (h1 : W * 3600 ≤ C * 86400) (h2 : S ≤ C2) :
    ((CheckLastBackup.evalServer edges1 now W C).1 = "YES" →
      1 ≤ (CheckLastBackup.evalServer edges1 now W C).2.2) ∧
    ((CheckFilesets.latest_snapshot_after_cutoff edges2 now S C2).1 = "YES" →
      1 ≤ (CheckFilesets.latest_snapshot_after_cutoff edges2 now S C2).2.2) := by
  constructor
  · intro hy
    obtain ⟨e, he, d, hdt, hle, hrc⟩ := (evalServer_status_iff edges1 now W C).mp hy
    rw [evalServer_cnt_eq]
    have hp : lbCountP now (now - C * 86400) e = true := by
      simp only [lbCountP, hdt, Bool.and_eq_true, decide_eq_true_eq]
      omega
    have hpos : 0 < edges1.countP (lbCountP now (now - C * 86400)) :=
      List.countP_pos_iff.mpr ⟨e, he, hp⟩
    omega
  · intro hy
    obtain ⟨hh, e, he, hp⟩ := (fs_status_iff edges2 now S C2).mp hy
    rw [fs_cnt_eq, if_pos hh]
    have hc : fsCountP now C2 e = true := by
      cases hdt : e.date with
      | none => simp [fsStatusP, hdt] at hp
      | some d =>
        simp only [fsStatusP, hdt, Bool.and_eq_true, decide_eq_true_eq] at hp
        simp only [fsCountP, hdt, Bool.and_eq_true, decide_eq_true_eq]
        omega
    have hpos : 0 < edges2.countP (fsCountP now C2) :=
      List.countP_pos_iff.mpr ⟨e, he, hc⟩
    omega

/-- Witness for C7 at a concrete compliant input. -/
theorem c7_retention_witness :
    1 ≤ (CheckLastBackup.evalServer [⟨some 0, false, "G"⟩] 0 24 60).2.2
    ∧ 1 ≤ (CheckFilesets.latest_snapshot_after_cutoff [⟨some 0, false, "G"⟩] 0 2 60).2.2 := by
  have h := c7_retention_lower_bound [⟨some 0, false, "G"⟩] [⟨some 0, false, "G"⟩]
    0 24 60 2 60 (by norm_num) (by norm_num)
  exact ⟨h.1 (by decide), h.2 (by decide)⟩

/-!  ## Claim C8 — remediation-trigger outcome mapping  -/

/-- Claim C8: for every HTTP response `(status, body)` to the on-demand
trigger call, status 200/201/202/204 yields `triggered`; otherwise status
409 or a body containing "running" or "in progress" case-insensitively
yields `already_running`; every other response yields an error message
built from the HTTP status and the body truncated to 500 characters. -/
theorem c8_trigger_mapping (status : Nat) (body : String) :
    ((CombinedReport.trigger_on_demand_backup status body).1 = true
      ↔ (status = 200 ∨ status = 201 ∨ status = 202 ∨ status = 204)) ∧
    ((CombinedReport.trigger_on_demand_backup status body).2.1 = true
      ↔ (¬(status = 200 ∨ status = 201 ∨ status = 202 ∨ status = 204)
          ∧ (status = 409 ∨ strContains (lowerStr body) ("running") = true
              ∨ strContains (lowerStr body) ("in progress") = true))) ∧
    (∀ msg, (CombinedReport.trigger_on_demand_backup status body).2.2 = some msg
      ↔ (¬(status = 200 ∨ status = 201 ∨ status = 202 ∨ status = 204)
          ∧ ¬(status = 409 ∨ strContains (lowerStr body) ("running") = true
              ∨ strContains (lowerStr body) ("in progress") = true)
          ∧ msg = "HTTP " ++ toString status ++ ": " ++ strTake body 500)) := by
  unfold CombinedReport.trigger_on_demand_backup
  split_ifs with hA hB
  · refine ⟨by simp [hA], by simp [hA], fun msg => by simp [hA]⟩
  · refine ⟨by simp [hA, hB], by simp [hA, hB], fun msg => by simp [hB]⟩
  · refine ⟨by simp [hA, hB], by simp [hA, hB], fun msg => ?_⟩
    simp only [Option.some.injEq]
    constructor
    · intro h
      exact ⟨hA, hB, h.symm⟩
    · rintro ⟨-, -, h⟩
      exact h.symm

/-!  ## Claim C10 — ticket updater incident state  -/

/-- Claim C10: the ServiceNow updater resolves a ticket iff the result
record's status is exactly the string `"YES"`; every other status
(including `"NO"`, `"TRIGGERED"`, `"IN_PROGRESS"`, `"FAILED"`, a missing
status, or a differently-cased `"yes"`) keeps the incident `"Active"`. -/
theorem c10_incident_state :
    (∀ s : Option String,
        UpdateServicenow.incident_state_of s = "Resolved" ↔ s = some "YES") ∧
    UpdateServicenow.incident_state_of (some "NO") = "Active" ∧
    UpdateServicenow.incident_state_of (some "TRIGGERED") = "Active" ∧
    UpdateServicenow.incident_state_of (some "IN_PROGRESS") = "Active" ∧
    UpdateServicenow.incident_state_of (some "FAILED") = "Active" ∧
    UpdateServicenow.incident_state_of (some "yes") = "Active" ∧
    UpdateServicenow.incident_state_of none = "Active" := by
  refine ⟨?_, by decide, by decide, by decide, by decide, by decide, by decide⟩
  intro s
  by_cases h : s = some "YES"
  · have hok : ("OK" : String) = "OK" := rfl
    simp [UpdateServicenow.incident_state_of, UpdateServicenow.statusOf, h]
  · have hne : ("FAILED" : String) ≠ "OK" := by decide
    simp [UpdateServicenow.incident_state_of, UpdateServicenow.statusOf, h, hne]

/-!  ## Claim C9 — remediation invocation discipline  -/

theorem char_eq_of_toNat (a b : Char) (h : a.toNat = b.toNat) : a = b :=
  Char.eq_of_val_eq (UInt32.ext h)

theorem lexLt_irrefl (l : List Char) : lexLt l l = false := by
  induction l with
  | nil => rfl
  | cons a t ih => simp [lexLt, ih]

theorem lexLt_trans (a : List Char) : ∀ b c, lexLt a b = true →
    lexLt b c = true → lexLt a c = true := by
  induction a with
  | nil =>
    intro b c h1 h2
    cases c with
    | nil =>
      cases b with
      | nil => exact h1
      | cons bh bt => simp [lexLt] at h2
    | cons ch ct => rfl
  | cons ah at2 ih =>
    intro b c h1 h2
    cases b with
    | nil => simp [lexLt] at h1
    | cons bh bt =>
      cases c with
      | nil => simp [lexLt] at h2
      | cons ch ct =>
        rcases Nat.lt_trichotomy ah.toNat bh.toNat with g1 | g1 | g1
        · rcases Nat.lt_trichotomy bh.toNat ch.toNat with g2 | g2 | g2
          · have hx : ah.toNat < ch.toNat := by omega
            simp [lexLt, hx]
          · have hx : ah.toNat < ch.toNat := by omega
            simp [lexLt, hx]
          · have hx : ¬ bh.toNat < ch.toNat := by omega
            have hy : ch.toNat < bh.toNat := by omega
            simp [lexLt, hx, hy] at h2
        · rcases Nat.lt_trichotomy bh.toNat ch.toNat with g2 | g2 | g2
          · have hx : ah.toNat < ch.toNat := by omega
            simp [lexLt, hx]
          · have hx : ¬ ah.toNat < bh.toNat := by omega
            have hy : ¬ bh.toNat < ah.toNat := by omega
            simp [lexLt, hx, hy] at h1
            have hx2 : ¬ bh.toNat < ch.toNat := by omega
            have hy2 : ¬ ch.toNat < bh.toNat := by omega
            simp [lexLt, hx2, hy2] at h2
            have hx3 : ¬ ah.toNat < ch.toNat := by omega
            have hy3 : ¬ ch.toNat < ah.toNat := by omega
            simp [lexLt, hx3, hy3]
            exact ih bt ct h1 h2
          · have hx : ¬ bh.toNat < ch.toNat := by omega
            have hy : ch.toNat < bh.toNat := by omega
            simp [lexLt, hx, hy] at h2
        · have hx : ¬ ah.toNat < bh.toNat := by omega
          have hy : bh.toNat < ah.toNat := by omega
          simp [lexLt, hx, hy] at h1

theorem lexLt_conn (a : List Char) : ∀ b, a ≠ b → lexLt a b = false →
    lexLt b a = true := by
  induction a with
  | nil =>
    intro b hne h
    cases b with
    | nil => exact absurd rfl hne
    | cons bh bt => simp [lexLt] at h
  | cons ah at2 ih =>
    intro b hne h
    cases b with
    | nil => rfl
    | cons bh bt =>
      rcases Nat.lt_trichotomy ah.toNat bh.toNat with g | g | g
      · simp [lexLt, g] at h
      · have hc : ah = bh := char_eq_of_toNat _ _ g
        subst hc
        have hx : ¬ ah.toNat < ah.toNat := by omega
        simp only [lexLt, if_neg hx] at h ⊢
        have hne2 : at2 ≠ bt := fun he => hne (by rw [he])
        exact ih bt hne2 h
      · have hx : ¬ ah.toNat < bh.toNat := by omega
        simp [lexLt, hx, g]

theorem strLt_irrefl (a : String) : strLt a a = false := lexLt_irrefl a.data

theorem strLt_ne (a b : String) (h : strLt a b = true) : a ≠ b := by
  intro he
  rw [he, strLt_irrefl] at h
  cases h

theorem strLt_trans (a b c : String) (h1 : strLt a b = true)
    (h2 : strLt b c = true) : strLt a c = true :=
  lexLt_trans a.data b.data c.data h1 h2

theorem strLt_conn (a b : String) (hne : a ≠ b) (h : strLt a b = false) :
    strLt b a = true := by
  refine lexLt_conn a.data b.data ?_ h
  intro he
  apply hne
  cases a
  cases b
  simp_all

theorem insertSortedSet_mem (s x : String) (l : List String) :
    x ∈ CombinedReport.insertSortedSet s l ↔ x = s ∨ x ∈ l := by
  induction l with
  | nil => simp [CombinedReport.insertSortedSet]
  | cons a t ih =>
    by_cases h1 : s = a
    · subst h1
      simp [CombinedReport.insertSortedSet]
    · by_cases h2 : strLt s a = true
      · simp [CombinedReport.insertSortedSet, h1, h2]
      · simp [CombinedReport.insertSortedSet, h1, h2, ih]
        tauto

theorem insertSortedSet_sorted (s : String) (l : List String)
    (h : l.Sorted (fun a b => strLt a b = true)) :
    (CombinedReport.insertSortedSet s l).Sorted (fun a b => strLt a b = true) := by
  induction l with
  | nil => simp [CombinedReport.insertSortedSet]
  | cons a t ih =>
    obtain ⟨ha, ht⟩ := List.sorted_cons.mp h
    by_cases h1 : s = a
    · subst h1
      simpa [CombinedReport.insertSortedSet] using h
    · by_cases h2 : strLt s a = true
      · simp only [CombinedReport.insertSortedSet, if_neg h1, if_pos h2]
        refine List.sorted_cons.mpr ⟨?_, h⟩
        intro b hb
        rcases List.mem_cons.mp hb with hb | hb
        · subst hb; exact h2
        · exact strLt_trans s a b h2 (ha b hb)
      · have h3 : strLt a s = true :=
          strLt_conn s a h1 (by rwa [← Bool.not_eq_true])
        simp only [CombinedReport.insertSortedSet, if_neg h1, if_neg h2]
        refine List.sorted_cons.mpr ⟨?_, ih ht⟩
        intro b hb
        rcases (insertSortedSet_mem s b t).mp hb with hb | hb
        · subst hb; exact h3
        · exact ha b hb

theorem foldl_insertSortedSet_sorted (l : List String) :
    ∀ acc : List String, acc.Sorted (fun a b => strLt a b = true) →
      (l.foldl (fun acc s => CombinedReport.insertSortedSet s acc) acc).Sorted
        (fun a b => strLt a b = true) := by
  induction l with
  | nil => exact fun acc h => h
  | cons a t ih =>
    intro acc h
    exact ih _ (insertSortedSet_sorted a acc h)

theorem sortedSet_nodup (l : List String) : (CombinedReport.sortedSet l).Nodup :=
  (foldl_insertSortedSet_sorted l [] (by simp)).imp (fun h => strLt_ne _ _ h)

theorem count_filterMap_le_one {α : Type} (f : α → Option String) (l : List α)
    (hnd : l.Nodup)
    (hinj : ∀ a b c, f a = some c → f b = some c → a = b) (c : String) :
    (l.filterMap f).count c ≤ 1 := by
  induction l with
  | nil => simp
  | cons a t ih =>
    obtain ⟨hna, hnt⟩ := List.nodup_cons.mp hnd
    cases hf : f a with
    | none =>
      rw [List.filterMap_cons_none hf]
      exact ih hnt
    | some b =>
      rw [List.filterMap_cons_some hf, List.count_cons]
      by_cases hbc : b = c
      · subst hbc
        have hz : (t.filterMap f).count b = 0 := by
          rw [List.count_eq_zero]
          intro hmem
          obtain ⟨x, hx, hfx⟩ := List.mem_filterMap.mp hmem
          have hxa : x = a := hinj x a b hfx hf
          subst hxa
          exact hna hx
        simp [hz]
      · have hbe : (b == c) = false := by simp [hbc]
        simp only [hbe, Bool.false_eq_true, if_false, Nat.add_zero]
        exact ih hnt

theorem trigTarget_eq_some (lookup : String → Option CombinedReport.VMInfo)
    (snapQ : String → Option Int × Option String)
    (trig : String → Bool × Bool × Option String)
    (cutoff : Int) (srv oid : String)
    (h : (CombinedReport.processServer lookup snapQ trig cutoff srv).trigTarget
        = some oid) :
    ∃ vm, lookup srv = some vm ∧ vm.id = oid := by
  cases hlk : lookup srv with
  | none => simp [CombinedReport.processServer, hlk] at h
  | some vm =>
    simp only [CombinedReport.processServer, hlk] at h
    by_cases hf : CombinedReport.isFreshDt cutoff (snapQ vm.id).1 = true
    · rw [if_pos hf] at h
      simp at h
    · rw [if_neg hf] at h
      by_cases hr : CombinedReport.isRunningStatus (snapQ vm.id).2 = true
      · rw [if_pos hr] at h
        simp at h
      · rw [if_neg hr] at h
        exact ⟨vm, rfl, Option.some.inj (by simpa using h)⟩

/-- Claim C9, counterexample to the claim as stated: the loop deduplicates
requested server names, not object ids — in an environment where the two
distinct names `"a"` and `"b"` both resolve to the VM id `"id1"` (as
`get_vm_by_name`'s non-exact fallback to the first candidate permits), with
no snapshots and nothing running, the run POSTs the on-demand trigger for
`"id1"` twice in one run. -/
theorem c9_counterexample :
    (CombinedReport.triggeredIds
        (fun _ => some ⟨"id1", "G"⟩)
        (fun _ => (none, none))
        (fun _ => (true, false, none))
        0 [["a"], ["b"]]).count "id1" = 2 := by
  decide

/-- Claim C9 (amended): `combined_backup_report.main` never triggers a
backup for a server whose evaluation is compliant, never triggers when the
platform reports the backup running, and deduplicates the requested server
names before the loop (the server list is duplicate-free), so it POSTs at
most one trigger per requested name per run; at most one trigger per
**object id** holds exactly in runs where distinct names resolve to
distinct ids — the code has no per-id guard. -/
theorem c9_remediation (lookup : String → Option CombinedReport.VMInfo)
    (snapQ : String → Option Int × Option String)
    (trig : String → Bool × Bool × Option String)
    (cutoff : Int) (tickets : List (List String)) :
    (∀ srv, (CombinedReport.processServer lookup snapQ trig cutoff srv).status = "YES" →
      (CombinedReport.processServer lookup snapQ trig cutoff srv).trigTarget = none) ∧
    (∀ srv vm, lookup srv = some vm →
      CombinedReport.isRunningStatus (snapQ vm.id).2 = true →
      (CombinedReport.processServer lookup snapQ trig cutoff srv).trigTarget = none) ∧
    (CombinedReport.buildServers tickets).Nodup ∧
    (∀ oid, (∀ s1 s2 vm1 vm2, lookup s1 = some vm1 → lookup s2 = some vm2 →
        vm1.id = vm2.id → s1 = s2) →
      (CombinedReport.triggeredIds lookup snapQ trig cutoff tickets).count oid ≤ 1) := by
  refine ⟨?_, ?_, sortedSet_nodup _, ?_⟩
  · intro srv h
    cases hlk : lookup srv with
    | none => simp [CombinedReport.processServer, hlk]
    | some vm =>
      simp only [CombinedReport.processServer, hlk] at h ⊢
      by_cases hf : CombinedReport.isFreshDt cutoff (snapQ vm.id).1 = true
      · rw [if_pos hf]
      · rw [if_neg hf] at h ⊢
        by_cases hr : CombinedReport.isRunningStatus (snapQ vm.id).2 = true
        · rw [if_pos hr]
        · rw [if_neg hr] at h
          simp only at h
          exact absurd h (by decide)
  · intro srv vm hlk hrun
    simp only [CombinedReport.processServer, hlk]
    by_cases hf : CombinedReport.isFreshDt cutoff (snapQ vm.id).1 = true
    · rw [if_pos hf]
    · rw [if_neg hf, if_pos hrun]
  · intro oid hinj
    unfold CombinedReport.triggeredIds CombinedReport.buildServers
    apply count_filterMap_le_one _ _ (sortedSet_nodup _)
    intro a b c hfa hfb
    obtain ⟨vma, hla, hia⟩ := trigTarget_eq_some lookup snapQ trig cutoff a c hfa
    obtain ⟨vmb, hlb, hib⟩ := trigTarget_eq_some lookup snapQ trig cutoff b c hfb
    exact hinj a b vma vmb hla hlb (by rw [hia, hib])

/-- Witness for C9 at a concrete one-server environment, discharging the
non-aliasing hypothesis of the per-object conjunct. -/
theorem c9_remediation_witness :
    (CombinedReport.triggeredIds
        (fun s => if s = "a" then some ⟨"id1", "G"⟩ else none)
        (fun _ => (none, none))
        (fun _ => (true, false, none))
        0 [["a"]]).count "id1" ≤ 1 := by
  have h := c9_remediation
    (fun s => if s = "a" then some ⟨"id1", "G"⟩ else none)
    (fun _ => (none, none))
    (fun _ => (true, false, none))
    0 [["a"]]
  exact h.2.2.2 "id1"
    (by
      intro s1 s2 vm1 vm2 h1 h2 hid
      have h1b : (if s1 = "a" then some (⟨"id1", "G"⟩ : CombinedReport.VMInfo)
          else none) = some vm1 := h1
      have h2b : (if s2 = "a" then some (⟨"id1", "G"⟩ : CombinedReport.VMInfo)
          else none) = some vm2 := h2
      by_cases ha : s1 = "a"
      · by_cases hb : s2 = "a"
        · rw [ha, hb]
        · rw [if_neg hb] at h2b; cases h2b
      · rw [if_neg ha] at h1b; cases h1b)

/-!  ## Claim C4 — grouping and tie-break of `check_backups`  -/

theorem optLe_refl (x : Option Int) : optLe x x := by
  cases x with
  | none => trivial
  | some d => exact le_refl d

theorem optLe_trans (x y z : Option Int) (h1 : optLe x y) (h2 : optLe y z) :
    optLe x z := by
  cases x with
  | none => trivial
  | some a =>
    cases y with
    | none => exact absurd h1 (by simp [optLe])
    | some b =>
      cases z with
      | none => exact absurd h2 (by simp [optLe])
      | some c =>
        have hab : a ≤ b := h1
        have hbc : b ≤ c := h2
        show a ≤ c
        omega

theorem dtBetter_true_optLe (x y : Option Int)
    (h : CheckBackup.dtBetter x y = true) : optLe y x := by
  cases x with
  | none => cases y <;> simp [CheckBackup.dtBetter] at h
  | some d =>
    cases y with
    | none => trivial
    | some bd =>
      simp only [CheckBackup.dtBetter, decide_eq_true_eq] at h
      show bd ≤ d
      omega

theorem dtBetter_false_optLe (x y : Option Int)
    (h : CheckBackup.dtBetter x y = false) : optLe x y := by
  cases x with
  | none => trivial
  | some d =>
    cases y with
    | none => simp [CheckBackup.dtBetter] at h
    | some bd =>
      simp only [CheckBackup.dtBetter, decide_eq_false_iff_not, not_lt] at h
      exact h

theorem bestFold_spec (snapsOf : String → List Snap) (now : Int)
    (l : List (CheckBackup.RObj × Nat)) :
    ∀ b, bestConsistent snapsOf now b →
      ∃ c, l.foldl (CheckBackup.bestStep snapsOf now) (some b) = some c
        ∧ bestConsistent snapsOf now c
        ∧ ((c.obj, c.weight) = (b.obj, b.weight) ∨ (c.obj, c.weight) ∈ l)
        ∧ (∀ p ∈ l, dominates snapsOf now c p)
        ∧ (b.weight ≤ c.weight ∧ (b.weight = c.weight → optLe b.dt c.dt)) := by
  induction l with
  | nil =>
    intro b hb
    exact ⟨b, rfl, hb, Or.inl rfl, by simp, le_refl _, fun _ => optLe_refl _⟩
  | cons p t ih =>
    intro b hb
    rw [List.foldl_cons]
    by_cases hrep : (decide (b.weight < p.2)
        || (p.2 == b.weight
            && CheckBackup.dtBetter (CheckBackup.candEval snapsOf now p.1).2 b.dt)) = true
    · have hstep : CheckBackup.bestStep snapsOf now (some b) p
          = some ⟨p.1, p.2, (CheckBackup.candEval snapsOf now p.1).2,
              (CheckBackup.candEval snapsOf now p.1).1⟩ := by
        simp only [CheckBackup.bestStep]
        rw [if_pos hrep]
      rw [hstep]
      obtain ⟨c, hc, hcons, hmem, hdom, hbw, hbd⟩ :=
        ih ⟨p.1, p.2, (CheckBackup.candEval snapsOf now p.1).2,
          (CheckBackup.candEval snapsOf now p.1).1⟩ ⟨rfl, rfl⟩
      dsimp only at hbw hbd
      refine ⟨c, hc, hcons, ?_, ?_, ?_, ?_⟩
      · rcases hmem with h | h
        · right
          rw [h]
          exact List.mem_cons_self _ _
        · exact Or.inr (List.mem_cons_of_mem _ h)
      · intro q hq
        rcases List.mem_cons.mp hq with h | h
        · subst h
          exact ⟨hbw, fun he => hbd he⟩
        · exact hdom q h
      · have hrep3 := hrep
        rw [Bool.or_eq_true] at hrep3
        rcases hrep3 with hlt | htie
        · have hlt2 : b.weight < p.2 := of_decide_eq_true hlt
          omega
        · have h1 : p.2 = b.weight := by
            have := (Bool.and_eq_true _ _).mp htie
            exact beq_iff_eq.mp this.1
          omega
      · intro heq
        have hrep3 := hrep
        rw [Bool.or_eq_true] at hrep3
        rcases hrep3 with hlt | htie
        · have hlt2 : b.weight < p.2 := of_decide_eq_true hlt
          have : p.2 ≤ c.weight := hbw
          omega
        · obtain ⟨h1, h2⟩ := (Bool.and_eq_true _ _).mp htie
          have h1e : p.2 = b.weight := beq_iff_eq.mp h1
          have hd1 : optLe b.dt (CheckBackup.candEval snapsOf now p.1).2 :=
            dtBetter_true_optLe _ _ h2
          have hd2 : optLe (CheckBackup.candEval snapsOf now p.1).2 c.dt :=
            hbd (by omega)
          exact optLe_trans _ _ _ hd1 hd2
    · have hstep : CheckBackup.bestStep snapsOf now (some b) p = some b := by
        simp only [CheckBackup.bestStep]
        rw [if_neg hrep]
      rw [hstep]
      obtain ⟨c, hc, hcons, hmem, hdom, hbw, hbd⟩ := ih b hb
      have hrep2 : (decide (b.weight < p.2)
          || (p.2 == b.weight
              && CheckBackup.dtBetter (CheckBackup.candEval snapsOf now p.1).2 b.dt))
            = false := by
        rwa [← Bool.not_eq_true]
      obtain ⟨hw0, ht0⟩ := Bool.or_eq_false_iff.mp hrep2
      have hw : p.2 ≤ b.weight := by
        have := of_decide_eq_false hw0
        omega
      refine ⟨c, hc, hcons, ?_, ?_, hbw, hbd⟩
      · rcases hmem with h | h
        · exact Or.inl h
        · exact Or.inr (List.mem_cons_of_mem _ h)
      · intro q hq
        rcases List.mem_cons.mp hq with h | h
        · subst h
          constructor
          · omega
          · intro he
            have hwb : q.2 = b.weight := by omega
            have htie : optLe (CheckBackup.candEval snapsOf now q.1).2 b.dt := by
              rcases Bool.and_eq_false_iff.mp ht0 with h3 | h3
              · exact absurd hwb (by simpa using h3)
              · exact dtBetter_false_optLe _ _ h3
            exact optLe_trans _ _ _ htie (hbd (by omega))
        · exact hdom q h

theorem groupBest_spec (snapsOf : String → List Snap) (now : Int)
    (entries : List (CheckBackup.RObj × Nat)) (h : entries ≠ []) :
    ∃ c, CheckBackup.groupBest snapsOf now entries = some c
      ∧ bestConsistent snapsOf now c
      ∧ (c.obj, c.weight) ∈ entries
      ∧ ∀ p ∈ entries, dominates snapsOf now c p := by
  cases entries with
  | nil => exact absurd rfl h
  | cons p t =>
    unfold CheckBackup.groupBest
    rw [List.foldl_cons]
    have hstep : CheckBackup.bestStep snapsOf now none p
        = some ⟨p.1, p.2, (CheckBackup.candEval snapsOf now p.1).2,
            (CheckBackup.candEval snapsOf now p.1).1⟩ := rfl
    rw [hstep]
    obtain ⟨c, hc, hcons, hmem, hdom, hbw, hbd⟩ :=
      bestFold_spec snapsOf now t
        ⟨p.1, p.2, (CheckBackup.candEval snapsOf now p.1).2,
          (CheckBackup.candEval snapsOf now p.1).1⟩ ⟨rfl, rfl⟩
    dsimp only at hbw hbd
    refine ⟨c, hc, hcons, ?_, ?_⟩
    · rcases hmem with h1 | h1
      · rw [h1]
        exact List.mem_cons_self _ _
      · exact List.mem_cons_of_mem _ h1
    · intro q hq
      rcases List.mem_cons.mp hq with h1 | h1
      · subst h1
        exact ⟨hbw, fun he => hbd he⟩
      · exact hdom q h1

theorem addToGroup_keys (acc : List (String × List (CheckBackup.RObj × Nat)))
    (p : CheckBackup.RObj × Nat) :
    (CheckBackup.addToGroup acc p).map Prod.fst
      = (if p.1.otype ∈ acc.map Prod.fst then acc.map Prod.fst
         else acc.map Prod.fst ++ [p.1.otype]) := by
  induction acc with
  | nil => simp [CheckBackup.addToGroup]
  | cons hd rest ih =>
    obtain ⟨t0, g⟩ := hd
    by_cases h1 : t0 = p.1.otype
    · subst h1
      simp [CheckBackup.addToGroup]
    · have h2 : ¬ p.1.otype = t0 := fun h => h1 h.symm
      simp only [CheckBackup.addToGroup, if_neg h1, List.map_cons, ih,
        List.mem_cons, h2, false_or]
      by_cases h3 : p.1.otype ∈ rest.map Prod.fst
      · simp [h3]
      · simp [h3]

theorem addToGroup_keys_mem (acc : List (String × List (CheckBackup.RObj × Nat)))
    (p : CheckBackup.RObj × Nat) (ty : String) :
    ty ∈ (CheckBackup.addToGroup acc p).map Prod.fst
      ↔ ty ∈ acc.map Prod.fst ∨ ty = p.1.otype := by
  rw [addToGroup_keys]
  by_cases hc : p.1.otype ∈ acc.map Prod.fst
  · rw [if_pos hc]
    constructor
    · exact Or.inl
    · rintro (h | h)
      · exact h
      · rw [h]; exact hc
  · rw [if_neg hc]
    simp [List.mem_append]

theorem foldl_addToGroup_nodup (l : List (CheckBackup.RObj × Nat)) :
    ∀ acc : List (String × List (CheckBackup.RObj × Nat)),
      (acc.map Prod.fst).Nodup →
      ((l.foldl CheckBackup.addToGroup acc).map Prod.fst).Nodup := by
  induction l with
  | nil => exact fun acc h => h
  | cons p t ih =>
    intro acc h
    rw [List.foldl_cons]
    apply ih
    rw [addToGroup_keys]
    by_cases hc : p.1.otype ∈ acc.map Prod.fst
    · rw [if_pos hc]; exact h
    · rw [if_neg hc]
      simp [List.nodup_append, h, hc]

theorem foldl_addToGroup_keys_iff (l : List (CheckBackup.RObj × Nat)) :
    ∀ acc ty, ty ∈ (l.foldl CheckBackup.addToGroup acc).map Prod.fst
      ↔ ty ∈ acc.map Prod.fst ∨ ∃ p ∈ l, p.1.otype = ty := by
  induction l with
  | nil => simp
  | cons p t ih =>
    intro acc ty
    rw [List.foldl_cons, ih, addToGroup_keys_mem]
    constructor
    · rintro ((h | h) | h)
      · exact Or.inl h
      · exact Or.inr ⟨p, List.mem_cons_self _ _, h.symm⟩
      · obtain ⟨q, hq, hqt⟩ := h
        exact Or.inr ⟨q, List.mem_cons_of_mem _ hq, hqt⟩
    · rintro (h | ⟨q, hq, hqt⟩)
      · exact Or.inl (Or.inl h)
      · rcases List.mem_cons.mp hq with h1 | h1
        · subst h1
          exact Or.inl (Or.inr hqt.symm)
        · exact Or.inr ⟨q, h1, hqt⟩

theorem addToGroup_mem_inv (acc : List (String × List (CheckBackup.RObj × Nat)))
    (p : CheckBackup.RObj × Nat) (t : String) (es : List (CheckBackup.RObj × Nat))
    (h : (t, es) ∈ CheckBackup.addToGroup acc p) :
    (∃ es0, (t, es0) ∈ acc ∧ es = es0 ++ [p] ∧ t = p.1.otype)
      ∨ (t, es) ∈ acc ∨ (es = [p] ∧ t = p.1.otype) := by
  induction acc with
  | nil =>
    simp only [CheckBackup.addToGroup, List.mem_singleton] at h
    have h1 : t = p.1.otype := (Prod.ext_iff.mp h).1
    have h2 : es = [p] := (Prod.ext_iff.mp h).2
    exact Or.inr (Or.inr ⟨h2, h1⟩)
  | cons hd rest ih =>
    obtain ⟨t0, g⟩ := hd
    by_cases h1 : t0 = p.1.otype
    · subst h1
      simp only [CheckBackup.addToGroup] at h
      rw [if_true] at h
      rcases List.mem_cons.mp h with h2 | h2
      · have h3 : t = p.1.otype := (Prod.ext_iff.mp h2).1
        have h4 : es = g ++ [p] := (Prod.ext_iff.mp h2).2
        exact Or.inl ⟨g, by rw [h3]; exact List.mem_cons_self _ _, h4, h3⟩
      · exact Or.inr (Or.inl (List.mem_cons_of_mem _ h2))
    · simp only [CheckBackup.addToGroup, if_neg h1, List.mem_cons] at h
      rcases h with h | h
      · exact Or.inr (Or.inl (List.mem_cons.mpr (Or.inl h)))
      · rcases ih h with ⟨es0, h2, h3, h4⟩ | h2 | h2
        · exact Or.inl ⟨es0, List.mem_cons_of_mem _ h2, h3, h4⟩
        · exact Or.inr (Or.inl (List.mem_cons_of_mem _ h2))
        · exact Or.inr (Or.inr h2)

theorem foldl_addToGroup_inv (U : CheckBackup.RObj × Nat → Prop)
    (l : List (CheckBackup.RObj × Nat)) :
    ∀ acc, (∀ t es, (t, es) ∈ acc → es ≠ [] ∧ ∀ p ∈ es, p.1.otype = t ∧ U p) →
      (∀ p ∈ l, U p) →
      ∀ t es, (t, es) ∈ l.foldl CheckBackup.addToGroup acc →
        es ≠ [] ∧ ∀ p ∈ es, p.1.otype = t ∧ U p := by
  induction l with
  | nil => exact fun acc hacc _ => hacc
  | cons p tl ih =>
    intro acc hacc hl
    rw [List.foldl_cons]
    apply ih
    · intro t es hmem
      rcases addToGroup_mem_inv acc p t es hmem with ⟨es0, h2, h3, h4⟩ | h2 | ⟨h2, h3⟩
      · obtain ⟨-, hes0⟩ := hacc t es0 h2
        subst h3
        refine ⟨by simp, ?_⟩
        intro q hq
        rcases List.mem_append.mp hq with hq1 | hq1
        · exact hes0 q hq1
        · rw [List.mem_singleton.mp hq1, h4]
          exact ⟨rfl, hl p (List.mem_cons_self _ _)⟩
      · exact hacc t es h2
      · subst h2
        refine ⟨by simp, ?_⟩
        intro q hq
        rw [List.mem_singleton.mp hq, h3]
        exact ⟨rfl, hl p (List.mem_cons_self _ _)⟩
    · intro q hq
      exact hl q (List.mem_cons_of_mem _ hq)

theorem addToGroup_preserve (acc : List (String × List (CheckBackup.RObj × Nat)))
    (q : CheckBackup.RObj × Nat) (t : String) (es : List (CheckBackup.RObj × Nat))
    (h : (t, es) ∈ acc) :
    ∃ es2, (t, es2) ∈ CheckBackup.addToGroup acc q ∧ ∀ x ∈ es, x ∈ es2 := by
  induction acc with
  | nil => cases h
  | cons hd rest ih =>
    obtain ⟨t0, g⟩ := hd
    by_cases h1 : t0 = q.1.otype
    · subst h1
      simp only [CheckBackup.addToGroup]
      rw [if_true]
      rcases List.mem_cons.mp h with h2 | h2
      · have h3 : t = q.1.otype := (Prod.ext_iff.mp h2).1
        have h4 : es = g := (Prod.ext_iff.mp h2).2
        subst h3
        refine ⟨g ++ [q], List.mem_cons_self _ _, ?_⟩
        intro x hx
        rw [h4] at hx
        exact List.mem_append.mpr (Or.inl hx)
      · exact ⟨es, List.mem_cons_of_mem _ h2, fun x hx => hx⟩
    · simp only [CheckBackup.addToGroup, if_neg h1]
      rcases List.mem_cons.mp h with h2 | h2
      · exact ⟨es, List.mem_cons.mpr (Or.inl h2), fun x hx => hx⟩
      · obtain ⟨es2, h3, h4⟩ := ih h2
        exact ⟨es2, List.mem_cons_of_mem _ h3, h4⟩

theorem addToGroup_self_mem (acc : List (String × List (CheckBackup.RObj × Nat)))
    (q : CheckBackup.RObj × Nat) :
    ∃ es, (q.1.otype, es) ∈ CheckBackup.addToGroup acc q ∧ q ∈ es := by
  induction acc with
  | nil =>
    exact ⟨[q], List.mem_singleton.mpr rfl, List.mem_singleton.mpr rfl⟩
  | cons hd rest ih =>
    obtain ⟨t0, g⟩ := hd
    by_cases h1 : t0 = q.1.otype
    · subst h1
      simp only [CheckBackup.addToGroup]
      rw [if_true]
      exact ⟨g ++ [q], List.mem_cons_self _ _,
        List.mem_append.mpr (Or.inr (List.mem_singleton.mpr rfl))⟩
    · simp only [CheckBackup.addToGroup, if_neg h1]
      obtain ⟨es, h2, h3⟩ := ih
      exact ⟨es, List.mem_cons_of_mem _ h2, h3⟩

theorem foldl_addToGroup_complete (l : List (CheckBackup.RObj × Nat)) :
    ∀ acc (q : CheckBackup.RObj × Nat),
      (q ∈ l ∨ ∃ es0, (q.1.otype, es0) ∈ acc ∧ q ∈ es0) →
      ∃ es, (q.1.otype, es) ∈ l.foldl CheckBackup.addToGroup acc ∧ q ∈ es := by
  induction l with
  | nil =>
    intro acc q h
    rcases h with h | h
    · cases h
    · exact h
  | cons p t ih =>
    intro acc q h
    rw [List.foldl_cons]
    rcases h with h | ⟨es0, h2, h3⟩
    · rcases List.mem_cons.mp h with h1 | h1
      · subst h1
        obtain ⟨es, h4, h5⟩ := addToGroup_self_mem acc q
        exact ih _ q (Or.inr ⟨es, h4, h5⟩)
      · exact ih _ q (Or.inl h1)
    · obtain ⟨es2, h4, h5⟩ := addToGroup_preserve acc p q.1.otype es0 h2
      exact ih _ q (Or.inr ⟨es2, h4, h5 q h3⟩)

theorem rows_of_groups (snapsOf : String → List Snap) (now : Int) (srv : String)
    (groups : List (String × List (CheckBackup.RObj × Nat)))
    (hne : ∀ t es, (t, es) ∈ groups → es ≠ []) :
    ((groups.filterMap (fun g =>
        (CheckBackup.groupBest snapsOf now g.2).map (CheckBackup.rowOfBest srv g.1))).map
          (fun r => r.otype)
      = groups.map Prod.fst)
    ∧ ∀ t es, (t, es) ∈ groups →
        ∃ c, CheckBackup.groupBest snapsOf now es = some c
          ∧ CheckBackup.rowOfBest srv t c ∈ groups.filterMap (fun g =>
              (CheckBackup.groupBest snapsOf now g.2).map
                (CheckBackup.rowOfBest srv g.1)) := by
  induction groups with
  | nil => exact ⟨rfl, by simp⟩
  | cons g0 rest ih =>
    obtain ⟨t0, es0⟩ := g0
    have hne0 : es0 ≠ [] := hne t0 es0 (List.mem_cons_self _ _)
    obtain ⟨c0, hc0, -, -, -⟩ := groupBest_spec snapsOf now es0 hne0
    obtain ⟨ihmap, ihmem⟩ := ih (fun t es hte => hne t es (List.mem_cons_of_mem _ hte))
    have hstep : (((t0, es0) :: rest).filterMap (fun g =>
          (CheckBackup.groupBest snapsOf now g.2).map (CheckBackup.rowOfBest srv g.1)))
        = CheckBackup.rowOfBest srv t0 c0 :: rest.filterMap (fun g =>
            (CheckBackup.groupBest snapsOf now g.2).map (CheckBackup.rowOfBest srv g.1)) := by
      rw [List.filterMap_cons]
      simp [hc0]
    constructor
    · rw [hstep, List.map_cons, ihmap]
      rfl
    · intro t es hte
      rcases List.mem_cons.mp hte with h1 | h1
      · have ht : t = t0 := (Prod.ext_iff.mp h1).1
        have hes : es = es0 := (Prod.ext_iff.mp h1).2
        subst ht
        subst hes
        refine ⟨c0, hc0, ?_⟩
        rw [hstep]
        exact List.mem_cons_self _ _
      · obtain ⟨c, hc, hcmem⟩ := ihmem t es h1
        refine ⟨c, hc, ?_⟩
        rw [hstep]
        exact List.mem_cons_of_mem _ hcmem

/-- Claim C4: for a requested name with at least one positive-weight
candidate, `check_backups` groups the candidates by `object_type` and emits
exactly one row per group — the rows' types are exactly the distinct
candidate types, in first-seen order — and within each group the emitted
row comes from a candidate of maximal weight whose evaluator date is
latest among the equal-weight candidates. -/
theorem c4_driver (snapsOf : String → List Snap) (now : Int)
    (objs : List CheckBackup.RObj) (srv : String)
    (h : CheckBackup.matchesWithWeight srv objs ≠ []) :
    ((CheckBackup.serverRows snapsOf now objs srv).map (fun r => r.otype)
      = (CheckBackup.groupTypes (CheckBackup.matchesWithWeight srv objs)).map Prod.fst) ∧
    ((CheckBackup.groupTypes (CheckBackup.matchesWithWeight srv objs)).map Prod.fst).Nodup ∧
    (∀ ty, ty ∈ (CheckBackup.groupTypes (CheckBackup.matchesWithWeight srv objs)).map Prod.fst
      ↔ ∃ p ∈ CheckBackup.matchesWithWeight srv objs, p.1.otype = ty) ∧
    (∀ p ∈ CheckBackup.matchesWithWeight srv objs,
      ∃ es, (p.1.otype, es) ∈ CheckBackup.groupTypes (CheckBackup.matchesWithWeight srv objs)
        ∧ p ∈ es) ∧
    (∀ t es, (t, es) ∈ CheckBackup.groupTypes (CheckBackup.matchesWithWeight srv objs) →
      es ≠ [] ∧ (∀ p ∈ es, p.1.otype = t ∧ p ∈ CheckBackup.matchesWithWeight srv objs) ∧
      ∃ c, CheckBackup.groupBest snapsOf now es = some c
        ∧ CheckBackup.rowOfBest srv t c ∈ CheckBackup.serverRows snapsOf now objs srv
        ∧ (c.obj, c.weight) ∈ es
        ∧ c.dt = (CheckBackup.candEval snapsOf now c.obj).2
        ∧ ∀ p ∈ es, p.2 ≤ c.weight
            ∧ (p.2 = c.weight → optLe (CheckBackup.candEval snapsOf now p.1).2 c.dt)) := by
  have hne : ∀ t es,
      (t, es) ∈ CheckBackup.groupTypes (CheckBackup.matchesWithWeight srv objs) →
      es ≠ [] ∧ ∀ p ∈ es, p.1.otype = t ∧ p ∈ CheckBackup.matchesWithWeight srv objs :=
    foldl_addToGroup_inv (· ∈ CheckBackup.matchesWithWeight srv objs)
      (CheckBackup.matchesWithWeight srv objs) [] (by simp) (fun p hp => hp)
  have hrows : CheckBackup.serverRows snapsOf now objs srv
      = (CheckBackup.groupTypes (CheckBackup.matchesWithWeight srv objs)).filterMap
          (fun g => (CheckBackup.groupBest snapsOf now g.2).map
            (CheckBackup.rowOfBest srv g.1)) := by
    simp only [CheckBackup.serverRows]
    rw [if_neg (by simpa [List.isEmpty_iff] using h)]
  obtain ⟨hmap, hmem⟩ := rows_of_groups snapsOf now srv
    (CheckBackup.groupTypes (CheckBackup.matchesWithWeight srv objs))
    (fun t es hte => (hne t es hte).1)
  refine ⟨?_, ?_, ?_, ?_, ?_⟩
  · rw [hrows]
    exact hmap
  · exact foldl_addToGroup_nodup (CheckBackup.matchesWithWeight srv objs) [] (by simp)
  · intro ty
    have := foldl_addToGroup_keys_iff (CheckBackup.matchesWithWeight srv objs) [] ty
    simpa using this
  · intro p hp
    exact foldl_addToGroup_complete (CheckBackup.matchesWithWeight srv objs) [] p (Or.inl hp)
  · intro t es hte
    obtain ⟨hne1, hprop⟩ := hne t es hte
    obtain ⟨c, hc, hcons, hcmem, hdom⟩ := groupBest_spec snapsOf now es hne1
    obtain ⟨c2, hc2, hrowmem⟩ := hmem t es hte
    have hcc : c2 = c := by
      rw [hc] at hc2
      exact (Option.some.inj hc2).symm
    subst hcc
    refine ⟨hne1, hprop, c2, hc, ?_, hcmem, hcons.1, fun p hp => hdom p hp⟩
    rw [hrows]
    exact hrowmem

/-- Witness for C4 at a one-candidate catalog. -/
theorem c4_driver_witness :
    (CheckBackup.serverRows (fun _ => []) 0
        [CheckBackup.mkEntry ("web01") none ("") ("") ("") ("") ("VM")] ("web01")).map
        (fun r => r.otype)
      = (CheckBackup.groupTypes (CheckBackup.matchesWithWeight ("web01")
          [CheckBackup.mkEntry ("web01") none ("") ("") ("") ("") ("VM")])).map Prod.fst :=
  (c4_driver (fun _ => []) 0
    [CheckBackup.mkEntry ("web01") none ("") ("") ("") ("") ("VM")] ("web01")
    (by decide)).1
